import Mathlib

/-!
Shallow embedding of the karyotype-chart pipeline in `src/karyotype.py`
(class `Karyotype`: `_gather_contours_dict`, `_id_info`, `read_karyotype`)
and of the constructor's filename handling, together with theorems that
settle the frozen claims about the natural-language specification.

Modelling conventions, used consistently below:
* a contour is an ordered closed list of integer points (as produced by
  `find_external_contours`);
* exact integer/rational arithmetic replaces Python floats: areas are kept
  doubled (`area2 = 2 * cv2.contourArea`), euclidean distances are kept
  squared (strictly monotone reparametrisations, so all comparisons and
  argmins in the source are preserved exactly), and the ratio test
  `min_area / max_area > R` with `R = rn/rd` is written in the equivalent
  cross-multiplied form `min * rd > rn * max` (valid since `max > 0` is
  checked first and `rd > 0`);
* `cv2.moments` of a polygonal contour is the exact Green-theorem value:
  writing `S` for the doubled signed area (shoelace sum), OpenCV's
  sign-normalised moments satisfy `m00 = |S| / 2` and, when `S ≠ 0`,
  `m10 / m00 = raw10 / (3 * S)` and `m01 / m00 = raw01 / (3 * S)`;
  Python's `int(...)` on these exact quotients is truncation toward zero;
* Python dicts are insertion-ordered association lists, in-place mutation of
  a record is replacement at its (unique) `cntr_idx`, and exceptions are the
  `Except` monad with structured errors carrying the counts that the source
  interpolates into its `ValueError` messages.
-/

namespace Woodpecker

/-! ### Geometry: contours, shoelace sums, moments -/

abbrev Pt := ℤ × ℤ
abbrev Cntr := List Pt

def cross (p q : Pt) : ℤ := p.1 * q.2 - q.1 * p.2

/-- Sum of an edge function over consecutive pairs of a list (open path). -/
def pathSum (f : Pt → Pt → ℤ) : Cntr → ℤ
  | [] => 0
  | [_] => 0
  | p :: q :: t => f p q + pathSum f (q :: t)

/-- Cyclic sum of an edge function over a closed polygon. -/
def cycSum (f : Pt → Pt → ℤ) : Cntr → ℤ
  | [] => 0
  | p :: t => pathSum f (p :: t) + f ((p :: t).getLastD p) p

/-- Doubled signed area of a polygon (shoelace sum); `cv2.contourArea`
returns its absolute value halved. -/
def shoelace (L : Cntr) : ℤ := cycSum cross L

/-- Six times the raw first moment in `x` of a polygon. -/
def raw10 (L : Cntr) : ℤ := cycSum (fun p q => cross p q * (p.1 + q.1)) L

/-- Six times the raw first moment in `y` of a polygon. -/
def raw01 (L : Cntr) : ℤ := cycSum (fun p q => cross p q * (p.2 + q.2)) L

/-- Python `int(a / b)` for an exact quotient of integers: truncation toward
zero. -/
def pyIntDiv (a b : ℤ) : ℤ := Int.tdiv a b

def sqDist (a b : ℤ × ℤ) : ℤ := (a.1 - b.1) ^ 2 + (a.2 - b.2) ^ 2

/-! ### Records and configuration -/

/-- One entry of `self.cntr_dicts` (`_gather_contours_dict`).  `area2` stores
twice `cv2.contourArea` (an exact integer), `distance_to_id` stores the
square of the recorded euclidean distance (`none` models the initial
`float('inf')` / the unassigned state).  The bounding rectangles are
derived from `cntr` and never inspected by the pipeline logic, so they are
not tracked as fields; the center of `cv2.minAreaRect` (the only use of
rotated rectangles in the control flow) is the abstract parameter `marC`
below. -/
structure CntrDict where
  cntr_idx : ℕ
  cntr : Cntr
  area2 : ℤ
  cx : ℤ
  cy : ℤ
  chromo_id : Option String := none
  chromo_idx : Option ℕ := none
  distance_to_id : Option ℤ := none
  deriving Repr, DecidableEq

/-- The numeric tunables read from `config/karyotype.ini` (an external
collaborator; the repository's comments document the shipped values, used
in `defaultCfg`).  Areas are doubled to match `area2`; the small-piece
ratio is the exact rational `spRatioNum / spRatioDen`. -/
structure Config where
  idCharYTol : ℤ
  maxIdCharArea : ℤ
  minIdCharArea : ℤ
  rowIdCharMinNum : ℕ
  rowIdCharMaxNum : ℕ
  idCharXTol : ℤ
  row1IdNum : ℕ
  row2IdNum : ℕ
  row3IdNum : ℕ
  row4IdNum : ℕ
  spRatioNum : ℤ
  spRatioDen : ℤ
  deriving Repr, DecidableEq

/-- The configuration documented in `karyotype.py`'s comments:
`IdCharYTolerance = 4`, `MaxIdCharArea = 80`, `MinIdCharArea = 15`,
`Row1IdCharNum = 5`, `Row3IdCharNum = 12`, `IdCharXTolerance = 40`,
per-row counts `5, 7, 6, 6`, `SmallPieceAreaRatio = 0.4 = 2/5`. -/
def defaultCfg : Config :=
  { idCharYTol := 4, maxIdCharArea := 80, minIdCharArea := 15,
    rowIdCharMinNum := 5, rowIdCharMaxNum := 12, idCharXTol := 40,
    row1IdNum := 5, row2IdNum := 7, row3IdNum := 6, row4IdNum := 6,
    spRatioNum := 2, spRatioDen := 5 }

/-- Structured stand-ins for the exceptions the source can raise
(`ValueError` with the interpolated counts, `ZeroDivisionError`,
`TypeError` on a missing main branch, `ValueError` on unpacking the
filename split, invalid image). -/
inductive KErr where
  | rowCount (found : ℕ)
  | rowCharCount (row found expected : ℕ)
  | idAssignOver (k : ℕ)
  | zeroDivArea
  | noMainBranch
  | zeroDivMoments
  | badFname (nfields : ℕ)
  | badImage
  deriving Repr, DecidableEq

/-! ### Contour Descriptor Builder (`_gather_contours_dict`) -/

/-- `Karyotype._gather_contours_dict` for one contour.  `marC` abstracts the
external `cv2.minAreaRect` center, already truncated to integers as the
source does with `int(cx)` / `int(cy)`; it is consulted exactly when the
zeroth moment vanishes. -/
def gatherContoursDict (marC : Cntr → ℤ × ℤ) (idx : ℕ) (c : Cntr) : CntrDict :=
  let S := shoelace c
  if S ≠ 0 then
    { cntr_idx := idx, cntr := c, area2 := abs S
      cx := pyIntDiv (raw10 c) (3 * S), cy := pyIntDiv (raw01 c) (3 * S) }
  else
    { cntr_idx := idx, cntr := c, area2 := abs S
      cx := (marC c).1, cy := (marC c).2 }

/-- The `for idx, cntr in enumerate(cntrs)` loop of `read_karyotype`. -/
def gatherAll (marC : Cntr → ℤ × ℤ) (cntrs : List Cntr) : List CntrDict :=
  cntrs.enum.map fun pr => gatherContoursDict marC pr.1 pr.2

/-! ### Ordered-dict and sorting helpers -/

/-- Append `r` to the entry of key `k` in an insertion-ordered association
list, creating the entry at the end if absent (Python dict + list append). -/
def upsert (k : ℤ) (r : CntrDict) :
    List (ℤ × List CntrDict) → List (ℤ × List CntrDict)
  | [] => [(k, [r])]
  | (k', v) :: t => if k' = k then (k', v ++ [r]) :: t else (k', v) :: upsert k r t

/-- Group records by exact `cy` (insertion order), as in `_id_info`. -/
def orgByCy (recs : List CntrDict) : List (ℤ × List CntrDict) :=
  recs.foldl (fun m r => upsert r.cy r m) []

/-- Stable insertion of `x` into a list sorted by the key `f` (the element
being inserted goes before strictly larger keys and after equal ones). -/
def insBy {α : Type} (f : α → ℤ) (x : α) : List α → List α
  | [] => [x]
  | y :: t => if f x < f y then x :: y :: t else y :: insBy f x t

/-- Stable insertion sort by an integer key: the model of Python's stable
`sorted(..., key=...)`. -/
def isortBy {α : Type} (f : α → ℤ) : List α → List α
  | [] => []
  | x :: t => insBy f x (isortBy f t)

/-! ### Label Row Resolver (`_id_info`) -/

/-- Area filter for chromosome-id characters:
`MIN_ID_CHAR_AREA < area < MAX_ID_CHAR_AREA` (strict on both sides),
written on doubled areas. -/
def filterIdChar (cfg : Config) (recs : List CntrDict) : List CntrDict :=
  recs.filter fun r => r.area2 < 2 * cfg.maxIdCharArea ∧ 2 * cfg.minIdCharArea < r.area2

/-- Inner scan of the `cy`-merging loop for a fixed `given_key`: walk the
whole original dict, absorbing every not-yet-merged group whose key
differs from `gk` by at most `tol`, recording the absorbed keys. -/
def absorbScan (tol gk : ℤ) (mk : List ℤ) :
    List (ℤ × List CntrDict) → List CntrDict × List ℤ
  | [] => ([], mk)
  | (ck, cv) :: t =>
    if gk ≠ ck ∧ |gk - ck| ≤ tol ∧ ck ∉ mk then
      let pr := absorbScan tol gk (mk ++ [ck]) t
      (cv ++ pr.1, pr.2)
    else absorbScan tol gk mk t

/-- Outer loop of the `cy`-merging step, threading `merged_keys`. -/
def mergeRowsGo (tol : ℤ) (all : List (ℤ × List CntrDict)) :
    List (ℤ × List CntrDict) → List ℤ → List (ℤ × List CntrDict)
  | [], _ => []
  | (gk, gv) :: t, mk =>
    if gk ∈ mk then mergeRowsGo tol all t mk
    else
      let pr := absorbScan tol gk mk all
      (gk, gv ++ pr.1) :: mergeRowsGo tol all t pr.2

/-- Merge groups whose `cy` keys are within `ID_CHAR_Y_TOLERANCE`. -/
def mergeRows (tol : ℤ) (m : List (ℤ × List CntrDict)) : List (ℤ × List CntrDict) :=
  mergeRowsGo tol m m []

/-- Discard merged groups whose member count falls outside
`[ROW_ID_CHAR_MIN_NUM, ROW_ID_CHAR_MAX_NUM]`. -/
def sizeFilter (cfg : Config) (m : List (ℤ × List CntrDict)) :
    List (ℤ × List CntrDict) :=
  m.filter fun kv =>
    cfg.rowIdCharMinNum ≤ kv.2.length ∧ kv.2.length ≤ cfg.rowIdCharMaxNum

/-- The groups surviving the size filter, before the four-row gate. -/
def sizedGroups (cfg : Config) (recs : List CntrDict) : List (ℤ × List CntrDict) :=
  sizeFilter cfg (mergeRows cfg.idCharYTol (orgByCy (filterIdChar cfg recs)))

/-- The horizontal near-duplicate collapse, translated exactly: the
reference abscissa `pre` is updated to the current record's `cx` on every
iteration, whether or not the record was kept. -/
def collapseXGo (tol : ℤ) : Option ℤ → List CntrDict → List CntrDict
  | _, [] => []
  | none, r :: t => r :: collapseXGo tol (some r.cx) t
  | some p, r :: t =>
    if |r.cx - p| > tol then r :: collapseXGo tol (some r.cx) t
    else collapseXGo tol (some r.cx) t

def collapseX (tol : ℤ) (l : List CntrDict) : List CntrDict := collapseXGo tol none l

/-- The four label rows sorted by `cy` key, each sorted by `cx` and
collapsed: the state of `merged_id_cntr_dicts_orgby_cy` at the per-row
count check. -/
def collapsedRows (cfg : Config) (sorted : List (ℤ × List CntrDict)) :
    List (ℤ × List CntrDict) :=
  sorted.map fun kv => (kv.1, collapseX cfg.idCharXTol (isortBy (·.cx) kv.2))

def rowNums (cfg : Config) : List ℕ :=
  [cfg.row1IdNum, cfg.row2IdNum, cfg.row3IdNum, cfg.row4IdNum]

/-- Per-row count gate; `row` is 1-based as in the source's message. -/
def checkCounts : ℕ → List (ℤ × List CntrDict) → List ℕ → Except KErr Unit
  | _, [], _ => .ok ()
  | _, _ :: _, [] => .ok ()
  | row, (_, v) :: t, n :: ns =>
    if v.length ≠ n then .error (.rowCharCount row v.length n)
    else checkCounts (row + 1) t ns

def chromoIdList : List String :=
  ["1", "2", "3", "4", "5", "6", "7", "8", "9", "10", "11", "12",
   "13", "14", "15", "16", "17", "18", "19", "20", "21", "22", "X", "Y"]

/-- Assign identifiers to one row, threading the running `chromo_idx`
counter; indexing past the canonical list is Python's `IndexError`. -/
def assignRow : ℕ → List CntrDict → Except KErr (List CntrDict × ℕ)
  | k, [] => .ok ([], k)
  | k, r :: t =>
    match chromoIdList[k]? with
    | none => .error (.idAssignOver k)
    | some s => do
      let pr ← assignRow (k + 1) t
      .ok ({ r with chromo_id := some s, chromo_idx := some k } :: pr.1, pr.2)

def assignRows : ℕ → List (ℤ × List CntrDict) → Except KErr (List (ℤ × List CntrDict))
  | _, [] => .ok []
  | k, (key, v) :: t => do
    let pr ← assignRow k v
    let rest ← assignRows pr.2 t
    .ok ((key, pr.1) :: rest)

/-- `Karyotype._id_info`.  Returns the pair of
(`id_cntr_dicts_orgby_cy` — the collapsed rows carrying identifiers,
`id_char_cntr_dicts_orgby_cy` snapshot used for `id_char_cntr_dicts` — the
key-sorted rows before the horizontal sort/collapse). -/
def idInfo (cfg : Config) (recs : List CntrDict) :
    Except KErr (List (ℤ × List CntrDict) × List (ℤ × List CntrDict)) := do
  let sized := sizedGroups cfg recs
  if sized.length ≠ 4 then
    .error (.rowCount sized.length)
  else
    let sorted := isortBy (·.1) sized
    let collapsed := collapsedRows cfg sorted
    let _ ← checkCounts 1 collapsed (rowNums cfg)
    let assigned ← assignRows 0 collapsed
    .ok (assigned, sorted)

/-! ### Fragment Classifier (`read_karyotype`, band partition and
nearest-label assignment) -/

/-- The band search of `read_karyotype`: starting from `top_y_limit = 0`,
return the first key `k` with `top < cy` and `cy < k` (both strict). -/
def bandOfGo (cy : ℤ) : ℤ → List ℤ → Option ℤ
  | _, [] => none
  | top, k :: t => if cy > top ∧ cy < k then some k else bandOfGo cy k t

def bandOf (keys : List ℤ) (cy : ℤ) : Option ℤ := bandOfGo cy 0 keys

/-- Distribute the non-label records into bands keyed by the label rows'
`cy` keys (records matching no band are silently skipped, as in the
source's `for`/`break` search). -/
def orgBands (keys : List ℤ) (left : List CntrDict) : List (ℤ × List CntrDict) :=
  left.foldl
    (fun m r =>
      match bandOf keys r.cy with
      | some k => upsert k r m
      | none => m)
    []

def lookupRow (m : List (ℤ × List CntrDict)) (k : ℤ) : List CntrDict :=
  match m.find? (fun kv => kv.1 = k) with
  | some kv => kv.2
  | none => []

/-- One step of the nearest-label scan: update on strict improvement only
(`none` models the initial `float('inf')`). -/
def nearestStep (c : ℤ × ℤ) (best : Option (ℤ × Option String × Option ℕ))
    (l : CntrDict) : Option (ℤ × Option String × Option ℕ) :=
  let d := sqDist c (l.cx, l.cy)
  match best with
  | none => some (d, l.chromo_id, l.chromo_idx)
  | some (dm, _, _) => if d < dm then some (d, l.chromo_id, l.chromo_idx) else best

/-- The nearest-label scan for one candidate center: strict improvement
from an infinite initial minimum, so the first label attaining the overall
minimum wins.  Distances are squared (order-isomorphic to the source's
`np.linalg.norm`). -/
def nearestScan (c : ℤ × ℤ) (labels : List CntrDict) :
    Option (ℤ × Option String × Option ℕ) :=
  labels.foldl (nearestStep c) none

/-- Write the matched identifier, index and distance into the record; with
no label at all the identifier stays `None` and the distance stays
infinite (`none`), as in the source. -/
def assignNearest (labels : List CntrDict) (r : CntrDict) : CntrDict :=
  match nearestScan (r.cx, r.cy) labels with
  | none => { r with chromo_id := none, chromo_idx := none, distance_to_id := none }
  | some (d, cid, cidx) =>
    { r with chromo_id := cid, chromo_idx := cidx, distance_to_id := some d }

/-- Fragment classification: band partition, per-band sort by `cx`, then
nearest-label assignment against the same band's label row. -/
def classifyStage (idRows : List (ℤ × List CntrDict)) (left : List CntrDict) :
    List (ℤ × List CntrDict) :=
  let bands := orgBands (idRows.map (·.1)) left
  let bands := bands.map fun kv => (kv.1, isortBy (·.cx) kv.2)
  bands.map fun kv => (kv.1, kv.2.map (assignNearest (lookupRow idRows kv.1)))

/-! ### Fragment Merger (`read_karyotype`, small-piece merging) -/

/-- Modelled from the spec: `utils.get_distance_between_two_contours` is not
under `src/`; section 6 specifies `closestPoints(contourA, contourB) ->
(distance, indexInA, indexInB)`, the minimum point-to-point distance
between the two boundaries together with the index of the closest point on
each (first pair attaining the strict minimum, in iteration order).
Distances are squared. -/
def cpInner (pa : ℕ × Pt) (acc2 : Option (ℤ × ℕ × ℕ)) (pb : ℕ × Pt) :
    Option (ℤ × ℕ × ℕ) :=
  let d := sqDist pa.2 pb.2
  match acc2 with
  | none => some (d, pa.1, pb.1)
  | some (dm, _, _) => if d < dm then some (d, pa.1, pb.1) else acc2

def closestPair (a b : Cntr) : Option (ℤ × ℕ × ℕ) :=
  a.enum.foldl (fun acc pa => b.enum.foldl (cpInner pa) acc) none

/-- Modelled from the spec: `utils.merge_two_contours_by_npi` is not under
`src/`; section 6 specifies a splice producing one closed boundary
incorporating both point sequences, joined at the matched closest-point
indices: the closed walk traverses the whole small cycle starting at point
`si` and returning to it, bridges to point `mi` of the main contour,
traverses the whole main cycle back to `mi`, and closes by bridging back
to point `si`. -/
def spliceContours (s m : Cntr) (si mi : ℕ) : Cntr :=
  let rs := s.rotate si
  let rm := m.rotate mi
  rs ++ rs.take 1 ++ rm ++ rm.take 1

/-- The in-place descriptor update of the merged main-branch record
(lines 358–366): note the source recomputes the centroid directly from
`moments['m00']` with no degenerate fallback, so a vanishing zeroth moment
is a `ZeroDivisionError`, unlike `_gather_contours_dict`. -/
def recomputeMerged (m : CntrDict) (merged : Cntr) : Except KErr CntrDict :=
  let S := shoelace merged
  if S = 0 then .error .zeroDivMoments
  else
    .ok { m with
          cntr := merged
          area2 := abs S
          cx := pyIntDiv (raw10 merged) (3 * S)
          cy := pyIntDiv (raw01 merged) (3 * S) }

/-- One step of the nearest-main-branch scan (strict improvement, first
minimum wins).  A `none` from `closestPair` (empty contour) is skipped. -/
def nearestMainStep (smallC : Cntr) (best : Option (ℤ × CntrDict × ℕ × ℕ))
    (m : CntrDict) : Option (ℤ × CntrDict × ℕ × ℕ) :=
  match closestPair smallC m.cntr with
  | none => best
  | some (d, si, mi) =>
    match best with
    | none => some (d, m, si, mi)
    | some (dm, _, _, _) => if d < dm then some (d, m, si, mi) else best

def nearestMain (smallC : Cntr) (mains : List CntrDict) :
    Option (ℤ × CntrDict × ℕ × ℕ) :=
  mains.foldl (nearestMainStep smallC) none

/-- Merge one small piece into its nearest main branch: splice, recompute the
surviving record in place (at its unique `cntr_idx`), and schedule the
small piece's `cntr_idx` for deletion. -/
def mergeOneSmall (mainIdxs : List ℕ) (st : List CntrDict × List ℕ)
    (small : CntrDict) : Except KErr (List CntrDict × List ℕ) :=
  let mains := st.1.filter fun r => r.cntr_idx ∈ mainIdxs
  match nearestMain small.cntr mains with
  | none => .error .noMainBranch
  | some (_, m, si, mi) => do
    let m' ← recomputeMerged m (spliceContours small.cntr m.cntr si mi)
    .ok (st.1.map (fun r => if r.cntr_idx = m.cntr_idx then m' else r),
         st.2 ++ [small.cntr_idx])

def listMax : List ℤ → ℤ
  | [] => 0
  | x :: t => t.foldl max x

def listMin : List ℤ → ℤ
  | [] => 0
  | x :: t => t.foldl min x

/-- Process one chromosome identifier of a band: skip singletons, fail on an
all-zero area group (Python's `ZeroDivisionError` at `min_area / max_area`),
skip when `min/max > SMALL_PIECE_AREA_RATIO`, otherwise partition into
small pieces (`area/max < R`) and main branches (`area/max ≥ R`) and merge
each small piece in turn.  All ratio tests are in exact cross-multiplied
form. -/
def mergeIdGroup (cfg : Config) (st : List CntrDict × List ℕ)
    (cid : Option String) : Except KErr (List CntrDict × List ℕ) :=
  let same := st.1.filter fun r => r.chromo_id = cid
  if same.length ≤ 1 then .ok st
  else
    let areas := same.map (·.area2)
    let maxA := listMax areas
    let minA := listMin areas
    if maxA = 0 then .error .zeroDivArea
    else if minA * cfg.spRatioDen > cfg.spRatioNum * maxA then .ok st
    else
      let smalls := same.filter fun r => r.area2 * cfg.spRatioDen < cfg.spRatioNum * maxA
      let mainIdxs :=
        (same.filter fun r => cfg.spRatioNum * maxA ≤ r.area2 * cfg.spRatioDen).map (·.cntr_idx)
      smalls.foldlM (mergeOneSmall mainIdxs) st

/-- The distinct identifiers of a band, first occurrences first (the source
enumerates `list(set(...))`, whose order is immaterial: distinct
identifiers touch disjoint records). -/
def firstDedup {α : Type} [DecidableEq α] (l : List α) : List α :=
  l.foldl (fun acc x => if x ∈ acc then acc else acc ++ [x]) []

def mergeBand (cfg : Config) (recs : List CntrDict) (dels : List ℕ) :
    Except KErr (List CntrDict × List ℕ) :=
  (firstDedup (recs.map (·.chromo_id))).foldlM (mergeIdGroup cfg) (recs, dels)

/-- The top merging loop over all bands, accumulating the global
`small_cnts_need_delete` list. -/
def mergeStage (cfg : Config) (bands : List (ℤ × List CntrDict)) :
    Except KErr (List (ℤ × List CntrDict) × List ℕ) :=
  bands.foldlM
    (fun acc kv => do
      let pr ← mergeBand cfg kv.2 acc.2
      .ok (acc.1 ++ [(kv.1, pr.1)], pr.2))
    (([] : List (ℤ × List CntrDict)), ([] : List ℕ))

/-- Delete the absorbed small pieces from one band's list. -/
def deleteBand (dels : List ℕ) (recs : List CntrDict) : List CntrDict :=
  recs.filter fun r => r.cntr_idx ∉ dels

/-- Delete the absorbed small pieces from every band. -/
def deleteStage (dels : List ℕ) (bands : List (ℤ × List CntrDict)) :
    List (ℤ × List CntrDict) :=
  bands.map fun kv => (kv.1, deleteBand dels kv.2)

/-- Indices of all label-character contours: the source saves
`id_char_cntr_dicts` before the horizontal sort/collapse, so collapsed-away
duplicates are still label characters. -/
def idCharIdxs (idCharRows : List (ℤ × List CntrDict)) : List ℕ :=
  (idCharRows.map fun kv => kv.2.map (·.cntr_idx)).flatten

/-- `Karyotype.read_karyotype` on the extractor's output: descriptors, label
rows, classification of the remaining contours, small-piece merging,
deletion; the final value is `chromo_cntr_dicts_orgby_cy`. -/
def readKaryotype (marC : Cntr → ℤ × ℤ) (cfg : Config) (cntrs : List Cntr) :
    Except KErr (List (ℤ × List CntrDict)) := do
  let all := gatherAll marC cntrs
  let pr ← idInfo cfg all
  let left := all.filter fun r => r.cntr_idx ∉ idCharIdxs pr.2
  let bands := classifyStage pr.1 left
  let mr ← mergeStage cfg bands
  .ok (deleteStage mr.2 mr.1)

/-! ### Constructor filename handling (`Karyotype.__init__`) -/

/-- Strings are modelled as their character lists (`String.data`), so that
Python's `str.split` can be translated structurally. -/
abbrev PyStr := List Char

/-- Python `s.split(sep)` for a one-character separator (also the behavior
of `str.split('.')` in the source): always returns at least one field, and
empty fields between consecutive separators. -/
def splitOnChar (sep : Char) : PyStr → List PyStr
  | [] => [[]]
  | c :: t =>
    let r := splitOnChar sep t
    if c = sep then [] :: r
    else (c :: r.headD []) :: r.tail

/-- The tail of `os.path.split` (the base filename). -/
def pyBaseName (fp : PyStr) : PyStr := (splitOnChar '/' fp).getLastD fp

/-- The unpacking `case_id, pic_id, type, fext = fname.split('.')`
(line 109): a `ValueError` unless the split has exactly four fields. -/
def karyotypeInitParse (fname : PyStr) :
    Except KErr (PyStr × PyStr × PyStr × PyStr) :=
  match splitOnChar '.' fname with
  | [a, b, c, d] => .ok (a, b, c, d)
  | l => .error (.badFname l.length)

/-- The constructor from the filename split onward: the split (line 109)
happens before `cv2.imread` (line 112), whose outcome is the parameter
`imreadOk`; on success the result is `(case_id, pic_id)`. -/
def karyotypeInit (fp : PyStr) (imreadOk : Bool) : Except KErr (PyStr × PyStr) := do
  let pr ← karyotypeInitParse (pyBaseName fp)
  if imreadOk then .ok (pr.1, pr.2.1) else .error .badImage

/-! ### The spec's wording of the horizontal collapse (for claim C3) -/

/-- The collapse rule as the specification words it, for refinement
comparison with `collapseX` (the source's rule): here the reference
abscissa is the previously KEPT record's `cx`. -/
def specCollapseXGo (tol : ℤ) : Option ℤ → List CntrDict → List CntrDict
  | _, [] => []
  | none, r :: t => r :: specCollapseXGo tol (some r.cx) t
  | some p, r :: t =>
    if |r.cx - p| > tol then r :: specCollapseXGo tol (some r.cx) t
    else specCollapseXGo tol (some p) t

def specCollapseX (tol : ℤ) (l : List CntrDict) : List CntrDict :=
  specCollapseXGo tol none l

/-! ### Statement-level helpers and concrete inputs for witnesses -/

deriving instance DecidableEq for Except

/-- The `(chromo_id, chromo_idx)` pairs of a flattened row list. -/
def idPairs (rows : List (ℤ × List CntrDict)) : List (Option String × Option ℕ) :=
  (rows.map (·.2)).flatten.map fun r => (r.chromo_id, r.chromo_idx)

/-- The canonical 24 identifier/index pairs in row-major order. -/
def canonicalPairs : List (Option String × Option ℕ) :=
  chromoIdList.enum.map fun pr => (some pr.2, some pr.1)

/-- Number of occurrences of contour index `i` across all bands. -/
def occCount (bands : List (ℤ × List CntrDict)) (i : ℕ) : ℕ :=
  (bands.map fun kv => (kv.2.filter fun r => r.cntr_idx = i).length).sum

/-- State invariant used in the merger proofs: the band's records carrying
the given identifier are exactly `L`, contour indices stay pairwise
distinct, and neither index `ja` nor `jb` is scheduled for deletion. -/
def groupInvar (cid : Option String) (L : List CntrDict) (ja jb : ℕ)
    (st : List CntrDict × List ℕ) : Prop :=
  st.1.filter (fun r => r.chromo_id = cid) = L ∧
  (st.1.map (·.cntr_idx)).Nodup ∧
  ja ∉ st.2 ∧ jb ∉ st.2

/-- `ascB t l` holds when `t :: l` is ascending (adjacent `≤`): the shape of
the label-row key list that the band search walks. -/
def ascB : ℤ → List ℤ → Bool
  | _, [] => true
  | t, k :: r => decide (t ≤ k) && ascB k r

/-- The per-record invariant threaded through the merger for the band
partition property: the record's contour is positively oriented with
nonnegative raw `y`-moment, its vertical centroid is the truncated moment
quotient of its own contour, and that centroid falls in band `k` of the
label-row keys. -/
def bandInv (keys : List ℤ) (k : ℤ) (r : CntrDict) : Prop :=
  0 < shoelace r.cntr ∧ 0 ≤ raw01 r.cntr ∧
  r.cy = pyIntDiv (raw01 r.cntr) (3 * shoelace r.cntr) ∧
  bandOf keys r.cy = some k

/-- Axis-aligned square contour with corner `(x, y)` and side `s`,
positively oriented (`shoelace (sqC x y s) = 2 * s ^ 2`). -/
def sqC (x y s : ℤ) : Cntr := [(x, y), (x + s, y), (x + s, y + s), (x, y + s)]

/-- Fixed stand-in for the external `cv2.minAreaRect` center (consulted
only on zero-moment contours). -/
def marC0 : Cntr → ℤ × ℤ := fun _ => (0, 0)

/-- `n` label-character squares (side 5, area 25) in one row: centers at
`cx = 10, 110, 210, …` and common `cy = y0 + 2` (integer truncation of
`y0 + 2.5`). -/
def rowLabels (n : ℕ) (y0 : ℤ) : List Cntr :=
  (List.range n).map fun i => sqC (100 * (i : ℤ) + 8) y0 5

/-- 24 label squares in four rows of 5/7/6/6 at `cy = 100, 200, 300, 400`. -/
def labelCntrs : List Cntr :=
  rowLabels 5 98 ++ rowLabels 7 198 ++ rowLabels 6 298 ++ rowLabels 6 398

/-- Full concrete input: the 24 labels, a main body and a small fragment in
band 1 (both nearest to label "1", areas 400 and 25), a body in band 2, and
a stray body whose centroid `cy = 450` lies below the last label row. -/
def worldCntrs : List Cntr :=
  labelCntrs ++ [sqC 0 40 20, sqC 30 48 5, sqC 100 140 20, sqC 0 440 20]

def wAll : List CntrDict := gatherAll marC0 worldCntrs

def wPr : List (ℤ × List CntrDict) × List (ℤ × List CntrDict) :=
  (idInfo defaultCfg wAll).toOption.getD ([], [])

def wLeft : List CntrDict := wAll.filter fun r => r.cntr_idx ∉ idCharIdxs wPr.2

def wBands : List (ℤ × List CntrDict) := classifyStage wPr.1 wLeft

def wOut : List (ℤ × List CntrDict) :=
  (readKaryotype marC0 defaultCfg worldCntrs).toOption.getD []

/-- An arbitrary record for exercising `recomputeMerged` in isolation. -/
def junkRec : CntrDict :=
  { cntr_idx := 99, cntr := [], area2 := 0, cx := 0, cy := 0 }

/-- The world's classified records of index 24 (main body, in band 1) and
27 (the stray below the last row). -/
def wR24 : CntrDict := (wLeft.filter (fun r => r.cntr_idx = 24)).headD junkRec

def wR27 : CntrDict := (wLeft.filter (fun r => r.cntr_idx = 27)).headD junkRec

/-- Band 1 of the classified world, as a keyed entry and its first record. -/
def wKv : ℤ × List CntrDict := wBands.headD (0, [])

def wR : CntrDict := wKv.2.headD junkRec

/-- Band 1 of the classified world (holds the two same-identifier bodies). -/
def wBand1 : List CntrDict := (wBands.headD (0, [])).2

/-- Band 2 of the classified world (a single body, no merging). -/
def wBand2 : List CntrDict := (wBands.getD 1 (0, [])).2

/-- Result of running the merger on band 1 of the world. -/
def wMerge1 : List CntrDict × List ℕ :=
  (mergeBand defaultCfg wBand1 []).toOption.getD ([], [])

/-- The two same-identifier bodies of band 1 of the world: the main branch
(area2 800) and the small fragment (area2 50). -/
def wA : CntrDict := wBand1.headD junkRec

def wB : CntrDict := wBand1.getD 1 junkRec

/-- Two same-identifier records of equal area (ratio 1, above the
small-piece threshold): a band on which the merger must be a no-op. -/
def nr1 : CntrDict :=
  { cntr_idx := 50, cntr := sqC 0 40 20, area2 := 800, cx := 10, cy := 50,
    chromo_id := some "1", chromo_idx := some 0 }

def nr2 : CntrDict :=
  { cntr_idx := 51, cntr := sqC 40 40 20, area2 := 800, cx := 50, cy := 50,
    chromo_id := some "1", chromo_idx := some 0 }

/-- A degenerate (collinear, zero-moment) contour. -/
def degenC : Cntr := [(0, 0), (2, 0), (4, 0)]

/-- A minAreaRect-center stand-in with a recognizable value. -/
def marCex : Cntr → ℤ × ℤ := fun _ => (7, 9)

/-- Records sorted by `cx` at abscissas `0, 30, 45` (for the collapse
claim: at tolerance 40, `45 - 30 ≤ 40` but `45 - 0 > 40`). -/
def cr0 : CntrDict := { cntr_idx := 0, cntr := [], area2 := 0, cx := 0, cy := 0 }

def cr1 : CntrDict := { cntr_idx := 1, cntr := [], area2 := 0, cx := 30, cy := 0 }

def cr2 : CntrDict := { cntr_idx := 2, cntr := [], area2 := 0, cx := 45, cy := 0 }

def collapseRow : List CntrDict := [cr0, cr1, cr2]

/-! ## Theorems -/

/-- Characterization of the source's horizontal collapse with an explicit
previous abscissa: an element is kept exactly when it differs from its
immediate predecessor in the sorted list (kept or not) by more than the
tolerance. -/
theorem collapseXGo_some_eq (tol p : ℤ) (l : List CntrDict) :
    collapseXGo tol (some p) l =
      ((p :: l.map (·.cx)).zip l).filterMap
        (fun pr => if |pr.2.cx - pr.1| > tol then some pr.2 else none) := by
  induction l generalizing p with
  | nil => rfl
  | cons r t ih =>
    simp only [List.map_cons, List.zip_cons_cons, List.filterMap_cons, collapseXGo]
    by_cases h : |r.cx - p| > tol
    · simp only [if_pos h, ih]
    · simp only [if_neg h, ih]

/-- C3, counterexample.  At tolerance 40 on abscissas `0, 30, 45`, the
source keeps only the first record, although the third differs from the
previously KEPT record (the first) by more than the tolerance; the rule as
the spec words it (`specCollapseX`) would keep the third record too, so
the claimed keep-iff condition is false on the code. -/
theorem C3_counterexample :
    collapseX 40 collapseRow = [cr0] ∧
    abs (cr2.cx - cr0.cx) > 40 ∧
    specCollapseX 40 collapseRow = [cr0, cr2] := by decide

/-- C3, amended: within each row sorted by horizontal centroid, a record is
kept iff it is the first record or its horizontal centroid differs from
the centroid of the immediately preceding record in the sorted order
(whether or not that record was kept) by more than the configured
horizontal tolerance; two adjacent label-blob contours whose centroids are
at most the tolerance apart still collapse to exactly one kept entry. -/
theorem C3_amended (tol : ℤ) (x : CntrDict) (xs : List CntrDict)
    (a b : CntrDict) (hab : |b.cx - a.cx| ≤ tol) :
    collapseX tol (x :: xs) =
      x :: ((x.cx :: xs.map (·.cx)).zip xs).filterMap
        (fun pr => if |pr.2.cx - pr.1| > tol then some pr.2 else none) ∧
    collapseX tol [a, b] = [a] := by
  constructor
  · show collapseXGo tol none (x :: xs) = _
    simp only [collapseXGo, collapseXGo_some_eq]
  · show collapseXGo tol none [a, b] = _
    simp only [collapseXGo, if_neg (not_lt.mpr hab)]

/-- C3, witness for the amended theorem at tolerance 40: abscissas `0, 30`
are 30 apart (below the tolerance) and collapse to one entry. -/
theorem C3_amended_witness :
    |cr1.cx - cr0.cx| ≤ 40 ∧
    (collapseX 40 (cr0 :: [cr1, cr2]) =
      cr0 :: ((cr0.cx :: [cr1, cr2].map (·.cx)).zip [cr1, cr2]).filterMap
        (fun pr => if |pr.2.cx - pr.1| > 40 then some pr.2 else none) ∧
     collapseX 40 [cr0, cr1] = [cr0]) :=
  ⟨by decide, C3_amended 40 cr0 [cr1, cr2] cr0 cr1 (by decide)⟩

/-- C10.  The constructor fails with a `ValueError` carrying the field
count whenever the base filename does not split into exactly four
dot-separated fields — and it does so whatever `cv2.imread` would return,
i.e. before the image is read; with exactly four fields, `case_id` and
`pic_id` are the first and second fields. -/
theorem C10_constructor (fp : PyStr) (imreadOk : Bool) :
    ((splitOnChar '.' (pyBaseName fp)).length ≠ 4 →
      karyotypeInit fp imreadOk =
        .error (.badFname (splitOnChar '.' (pyBaseName fp)).length)) ∧
    (∀ a b c d, splitOnChar '.' (pyBaseName fp) = [a, b, c, d] →
      karyotypeInit fp true = .ok (a, b)) := by
  unfold karyotypeInit karyotypeInitParse
  constructor
  · intro hlen
    rcases h : splitOnChar '.' (pyBaseName fp) with
      _ | ⟨a, _ | ⟨b, _ | ⟨c, _ | ⟨d, _ | ⟨e, t⟩⟩⟩⟩⟩ <;>
      first
        | rfl
        | exact absurd rfl (h ▸ hlen)
  · intro a b c d h
    rw [h]
    rfl

/-- C10, witness: a two-field name fails (even with a readable image
pretended unreadable order swapped — the split error wins), and the
repository's own sample name `L2311245727.001.K.TIF` parses. -/
theorem C10_witness :
    karyotypeInit "imgs/badname.png".data false = .error (.badFname 2) ∧
    karyotypeInit "imgs/L2311245727.001.K.TIF".data true =
      .ok ("L2311245727".data, "001".data) :=
  ⟨(C10_constructor "imgs/badname.png".data false).1 (by decide),
   (C10_constructor "imgs/L2311245727.001.K.TIF".data true).2
     "L2311245727".data "001".data "K".data "TIF".data (by decide)⟩

/-- C4.  The post-splice descriptor recompute (lines 363–365) divides by
the zeroth moment with no degenerate fallback: on a zero-moment merged
contour it raises (`ZeroDivisionError`), whereas the Descriptor Builder
rule of `_gather_contours_dict` falls back to the minAreaRect center
(here the stand-in center `(7, 9)`).  This contradicts the claim that the
recompute follows the same centroid rule and never fails. -/
theorem C4_recompute_no_fallback :
    recomputeMerged junkRec degenC = .error .zeroDivMoments ∧
    shoelace degenC = 0 ∧
    gatherContoursDict marCex 0 degenC =
      { cntr_idx := 0, cntr := degenC, area2 := 0, cx := 7, cy := 9 } := by decide

/-- C1, counterexample.  On a well-formed 24-label layout, the non-label
contour with index 27 (vertical centroid 450, below the last label row at
400) survives the label filter yet is appended to no band: it appears in
zero rows of the classification output (and of the final output), so not
every non-label contour is assigned to a row. -/
theorem C1_counterexample :
    (idInfo defaultCfg wAll).isOk = true ∧
    wLeft.any (fun r => r.cntr_idx == 27) = true ∧
    27 ∉ idCharIdxs wPr.2 ∧
    occCount wBands 27 = 0 ∧
    (readKaryotype marC0 defaultCfg worldCntrs).isOk = true ∧
    occCount wOut 27 = 0 := by decide

/-! ### Sorting and counting helper lemmas -/

theorem length_insBy {α : Type} (f : α → ℤ) (x : α) (l : List α) :
    (insBy f x l).length = l.length + 1 := by
  induction l with
  | nil => rfl
  | cons y t ih =>
    simp only [insBy]
    by_cases h : f x < f y
    · simp [if_pos h]
    · simp [if_neg h, ih]

theorem length_isortBy {α : Type} (f : α → ℤ) (l : List α) :
    (isortBy f l).length = l.length := by
  induction l with
  | nil => rfl
  | cons x t ih => simp [isortBy, length_insBy, ih]

theorem mem_insBy {α : Type} (f : α → ℤ) (x y : α) (l : List α) :
    y ∈ insBy f x l ↔ y = x ∨ y ∈ l := by
  induction l with
  | nil => simp [insBy]
  | cons z t ih =>
    simp only [insBy]
    by_cases h : f x < f z
    · simp only [if_pos h, List.mem_cons]
    · simp only [if_neg h, List.mem_cons, ih]
      tauto

theorem mem_isortBy {α : Type} (f : α → ℤ) (x : α) (l : List α) :
    x ∈ isortBy f l ↔ x ∈ l := by
  induction l with
  | nil => simp [isortBy]
  | cons y t ih => simp [isortBy, mem_insBy, ih]

/-! ### Count-gate lemmas (`_id_info`) -/

theorem checkCounts_ok_of_eq (rows : List (ℤ × List CntrDict)) :
    ∀ (i : ℕ) (ns : List ℕ), rows.map (fun kv => kv.2.length) = ns →
      checkCounts i rows ns = .ok () := by
  induction rows with
  | nil => intro i ns _; rfl
  | cons kv t ih =>
    intro i ns h
    subst h
    simp only [List.map_cons, checkCounts, if_neg (show ¬(kv.2.length ≠ kv.2.length) by simp)]
    exact ih _ _ rfl

theorem checkCounts_eq_of_ok (rows : List (ℤ × List CntrDict)) :
    ∀ (i : ℕ) (ns : List ℕ), rows.length = ns.length →
      checkCounts i rows ns = .ok () → rows.map (fun kv => kv.2.length) = ns := by
  induction rows with
  | nil =>
    intro i ns hlen _
    cases ns with
    | nil => rfl
    | cons n nt => exact absurd hlen (by simp)
  | cons kv t ih =>
    intro i ns hlen hok
    cases ns with
    | nil => exact absurd hlen (by simp)
    | cons n nt =>
      by_cases h : kv.2.length ≠ n
      · rw [show checkCounts i (kv :: t) (n :: nt) = .error (.rowCharCount i kv.2.length n) by
          simp [checkCounts, h]] at hok
        exact absurd hok (by simp)
      · push_neg at h
        rw [show checkCounts i (kv :: t) (n :: nt) = checkCounts (i + 1) t nt by
          simp [checkCounts, h]] at hok
        simp only [List.map_cons, h]
        exact congrArg (n :: ·) (ih _ _ (by simpa using hlen) hok)

theorem checkCounts_error_of_ne (rows : List (ℤ × List CntrDict)) :
    ∀ (i : ℕ) (ns : List ℕ), rows.length = ns.length →
      rows.map (fun kv => kv.2.length) ≠ ns → ∃ e, checkCounts i rows ns = .error e := by
  induction rows with
  | nil =>
    intro i ns hlen hne
    cases ns with
    | nil => exact absurd rfl hne
    | cons n nt => exact absurd hlen (by simp)
  | cons kv t ih =>
    intro i ns hlen hne
    cases ns with
    | nil => exact absurd hlen (by simp)
    | cons n nt =>
      by_cases h : kv.2.length ≠ n
      · exact ⟨.rowCharCount i kv.2.length n, by simp [checkCounts, h]⟩
      · push_neg at h
        obtain ⟨e, he⟩ := ih (i + 1) nt (by simpa using hlen)
          (fun hmap => hne (by simp [h, hmap]))
        exact ⟨e, by simp [checkCounts, h, he]⟩

theorem checkCounts_error_shape (rows : List (ℤ × List CntrDict)) :
    ∀ (i : ℕ) (ns : List ℕ) (e : KErr), checkCounts i rows ns = .error e →
      ∃ row found expected, e = .rowCharCount row found expected ∧ found ≠ expected := by
  induction rows with
  | nil => intro i ns e he; exact absurd he (by simp [checkCounts])
  | cons kv t ih =>
    intro i ns e he
    cases ns with
    | nil => exact absurd he (by simp [checkCounts])
    | cons n nt =>
      by_cases h : kv.2.length ≠ n
      · rw [show checkCounts i (kv :: t) (n :: nt) = .error (.rowCharCount i kv.2.length n) by
          simp [checkCounts, h]] at he
        exact ⟨i, kv.2.length, n, by simpa using he.symm, h⟩
      · push_neg at h
        rw [show checkCounts i (kv :: t) (n :: nt) = checkCounts (i + 1) t nt by
          simp [checkCounts, h]] at he
        exact ih _ _ _ he

/-! ### Identifier-assignment lemmas -/

theorem assignRow_spec (v : List CntrDict) :
    ∀ (k : ℕ) (pr : List CntrDict × ℕ), assignRow k v = .ok pr →
      pr.2 = k + v.length ∧
      pr.1.map (fun r => (r.chromo_id, r.chromo_idx)) =
        (List.range' k v.length).map (fun j => (chromoIdList[j]?, some j)) := by
  induction v with
  | nil =>
    intro k pr h
    have : pr = ([], k) := by simpa [assignRow] using h.symm
    subst this
    simp
  | cons r t ih =>
    intro k pr h
    rcases hk : chromoIdList[k]? with _ | s
    · rw [show assignRow k (r :: t) = .error (.idAssignOver k) by
        simp [assignRow, hk]] at h
      exact absurd h (by simp)
    · rcases hrec : assignRow (k + 1) t with e | pr'
      · rw [show assignRow k (r :: t) = .error e by
          simp [assignRow, hk, hrec, Bind.bind, Except.bind]] at h
        exact absurd h (by simp)
      · rw [show assignRow k (r :: t) =
            .ok ({ r with chromo_id := some s, chromo_idx := some k } :: pr'.1, pr'.2) by
          simp [assignRow, hk, hrec, Bind.bind, Except.bind]] at h
        obtain ⟨hlen, hmap⟩ := ih (k + 1) pr' hrec
        have hpr : pr = ({ r with chromo_id := some s, chromo_idx := some k } :: pr'.1, pr'.2) := by
          simpa using h.symm
        subst hpr
        constructor
        · simp [hlen]; omega
        · simp only [List.length_cons, List.range'_succ, List.map_cons, hmap, hk]

theorem assignRows_spec (rows : List (ℤ × List CntrDict)) :
    ∀ (k : ℕ) (res : List (ℤ × List CntrDict)), assignRows k rows = .ok res →
      res.map (·.1) = rows.map (·.1) ∧
      idPairs res =
        (List.range' k ((rows.map (fun kv => kv.2.length)).sum)).map
          (fun j => (chromoIdList[j]?, some j)) := by
  induction rows with
  | nil =>
    intro k res h
    have : res = [] := by simpa [assignRows] using h.symm
    subst this
    simp [idPairs]
  | cons kv t ih =>
    intro k res h
    rcases hrow : assignRow k kv.2 with e | pr
    · rw [show assignRows k (kv :: t) = .error e by
        simp [assignRows, hrow, Bind.bind, Except.bind]] at h
      exact absurd h (by simp)
    · rcases hrest : assignRows pr.2 t with e | res'
      · rw [show assignRows k (kv :: t) = .error e by
          simp [assignRows, hrow, hrest, Bind.bind, Except.bind]] at h
        exact absurd h (by simp)
      · rw [show assignRows k (kv :: t) = .ok ((kv.1, pr.1) :: res') by
          simp [assignRows, hrow, hrest, Bind.bind, Except.bind]] at h
        obtain ⟨hlen1, hmap1⟩ := assignRow_spec kv.2 k pr hrow
        obtain ⟨hkeys, hmap2⟩ := ih pr.2 res' hrest
        have hres : res = (kv.1, pr.1) :: res' := by simpa using h.symm
        subst hres
        constructor
        · simp [hkeys]
        · simp only [idPairs, List.map_cons, List.flatten_cons, List.map_append] at *
          rw [hmap1, hmap2, hlen1, ← List.map_append, List.range'_append_1,
            List.sum_cons, Nat.add_comm]

theorem assignRow_ok (v : List CntrDict) :
    ∀ k : ℕ, k + v.length ≤ 24 → ∃ pr, assignRow k v = .ok pr ∧ pr.2 = k + v.length := by
  induction v with
  | nil => intro k _; exact ⟨([], k), rfl, by simp⟩
  | cons r t ih =>
    intro k h
    have hk : k < chromoIdList.length := by
      rw [show chromoIdList.length = 24 from rfl]
      simp at h
      omega
    obtain ⟨pr, hpr, hlen⟩ := ih (k + 1) (by simp at h ⊢; omega)
    refine ⟨({ r with chromo_id := some chromoIdList[k], chromo_idx := some k } :: pr.1, pr.2),
      ?_, ?_⟩
    · simp [assignRow, List.getElem?_eq_getElem hk, hpr, Bind.bind, Except.bind]
    · simp [hlen]; omega

theorem assignRows_ok (rows : List (ℤ × List CntrDict)) :
    ∀ k : ℕ, k + ((rows.map (fun kv => kv.2.length)).sum) ≤ 24 →
      ∃ res, assignRows k rows = .ok res := by
  induction rows with
  | nil => intro k _; exact ⟨[], rfl⟩
  | cons kv t ih =>
    intro k h
    simp only [List.map_cons, List.sum_cons] at h
    obtain ⟨pr, hpr, hlen⟩ := assignRow_ok kv.2 k (by omega)
    obtain ⟨res', hres'⟩ := ih pr.2 (by omega)
    exact ⟨(kv.1, pr.1) :: res', by
      simp [assignRows, hpr, hres', Bind.bind, Except.bind]⟩

theorem idInfo_error_rowCount (cfg : Config) (recs : List CntrDict)
    (h4 : (sizedGroups cfg recs).length ≠ 4) :
    idInfo cfg recs = .error (.rowCount (sizedGroups cfg recs).length) := by
  simp [idInfo, h4]

theorem idInfo_error_of_checkCounts (cfg : Config) (recs : List CntrDict) (e : KErr)
    (h4 : (sizedGroups cfg recs).length = 4)
    (he : checkCounts 1 (collapsedRows cfg (isortBy (·.1) (sizedGroups cfg recs)))
        (rowNums cfg) = .error e) :
    idInfo cfg recs = .error e := by
  simp [idInfo, h4, he, Bind.bind, Except.bind]

theorem idInfo_ok_of_gates (cfg : Config) (recs : List CntrDict)
    (res : List (ℤ × List CntrDict))
    (h4 : (sizedGroups cfg recs).length = 4)
    (hc : checkCounts 1 (collapsedRows cfg (isortBy (·.1) (sizedGroups cfg recs)))
        (rowNums cfg) = .ok ())
    (ha : assignRows 0 (collapsedRows cfg (isortBy (·.1) (sizedGroups cfg recs))) = .ok res) :
    idInfo cfg recs = .ok (res, isortBy (·.1) (sizedGroups cfg recs)) := by
  simp [idInfo, h4, hc, ha, Bind.bind, Except.bind]

/-- C2.  Label-row resolution raises exactly when the number of merged
groups surviving the size filter differs from 4, or some collapsed row's
label count differs from the configured per-row counts `5, 7, 6, 6`; and
the raised error surfaces the offending count (the found group count, or
the 1-based row number with its found and expected counts). -/
theorem C2_gate_iff (recs : List CntrDict) :
    ((∃ e, idInfo defaultCfg recs = .error e) ↔
      ((sizedGroups defaultCfg recs).length ≠ 4 ∨
        (collapsedRows defaultCfg (isortBy (·.1) (sizedGroups defaultCfg recs))).map
          (fun kv => kv.2.length) ≠ rowNums defaultCfg)) ∧
    (∀ e, idInfo defaultCfg recs = .error e →
      (e = .rowCount (sizedGroups defaultCfg recs).length ∧
        (sizedGroups defaultCfg recs).length ≠ 4) ∨
      (∃ row found expected, e = .rowCharCount row found expected ∧ found ≠ expected)) := by
  have hclen : (collapsedRows defaultCfg (isortBy (·.1) (sizedGroups defaultCfg recs))).length
      = (sizedGroups defaultCfg recs).length := by
    simp [collapsedRows, length_isortBy]
  by_cases h4 : (sizedGroups defaultCfg recs).length ≠ 4
  · refine ⟨⟨fun _ => Or.inl h4, fun _ => ⟨_, idInfo_error_rowCount defaultCfg recs h4⟩⟩, ?_⟩
    intro e he
    rw [idInfo_error_rowCount defaultCfg recs h4] at he
    exact Or.inl ⟨by simpa using he.symm, h4⟩
  · push_neg at h4
    by_cases hcnt : (collapsedRows defaultCfg (isortBy (·.1) (sizedGroups defaultCfg recs))).map
        (fun kv => kv.2.length) ≠ rowNums defaultCfg
    · obtain ⟨e, he⟩ := checkCounts_error_of_ne _ 1 (rowNums defaultCfg)
        (by rw [hclen, h4]; rfl) hcnt
      refine ⟨⟨fun _ => Or.inr hcnt,
        fun _ => ⟨e, idInfo_error_of_checkCounts defaultCfg recs e h4 he⟩⟩, ?_⟩
      intro e' he'
      rw [idInfo_error_of_checkCounts defaultCfg recs e h4 he] at he'
      have : e = e' := by simpa using he'
      exact Or.inr (this ▸ checkCounts_error_shape _ 1 (rowNums defaultCfg) e he)
    · push_neg at hcnt
      have hc : checkCounts 1 (collapsedRows defaultCfg
          (isortBy (·.1) (sizedGroups defaultCfg recs))) (rowNums defaultCfg) = .ok () :=
        checkCounts_ok_of_eq _ 1 _ hcnt
      obtain ⟨res, ha⟩ := assignRows_ok _ 0 (by rw [hcnt]; rfl)
      have hok := idInfo_ok_of_gates defaultCfg recs res h4 hc ha
      refine ⟨⟨?_, ?_⟩, ?_⟩
      · rintro ⟨e, he⟩
        rw [hok] at he
        exact absurd he (by simp)
      · intro hbad
        rcases hbad with hbad | hbad
        · exact absurd h4 hbad
        · exact absurd hcnt hbad
      · intro e he
        rw [hok] at he
        exact absurd he (by simp)

/-- C2, witness: dropping the whole first label row from the world input
leaves only three surviving groups, and `_id_info` indeed raises. -/
theorem C2_witness :
    (sizedGroups defaultCfg (gatherAll marC0 (labelCntrs.drop 5))).length = 3 ∧
    (∃ e, idInfo defaultCfg (gatherAll marC0 (labelCntrs.drop 5)) = .error e) :=
  ⟨by decide, (C2_gate_iff (gatherAll marC0 (labelCntrs.drop 5))).1.mpr (Or.inl (by decide))⟩

/-- C6.  On any input on which `_id_info` succeeds, the flattened label
rows carry exactly the canonical identifier/index pairs
`("1", 0), …, ("22", 21), ("X", 22), ("Y", 23)` in row-major order — so
each identifier occurs exactly once and `chromo_id`/`chromo_idx` are
mutually consistent on every label record. -/
theorem C6_canonical (recs : List CntrDict)
    (pr : List (ℤ × List CntrDict) × List (ℤ × List CntrDict))
    (h : idInfo defaultCfg recs = .ok pr) :
    idPairs pr.1 = canonicalPairs := by
  by_cases h4 : (sizedGroups defaultCfg recs).length ≠ 4
  · rw [idInfo_error_rowCount defaultCfg recs h4] at h
    exact absurd h (by simp)
  · push_neg at h4
    rcases hc : checkCounts 1 (collapsedRows defaultCfg
        (isortBy (·.1) (sizedGroups defaultCfg recs))) (rowNums defaultCfg) with e | u
    · rw [idInfo_error_of_checkCounts defaultCfg recs e h4 hc] at h
      exact absurd h (by simp)
    · cases u
      have hcnt := checkCounts_eq_of_ok _ 1 (rowNums defaultCfg)
        (by simp [collapsedRows, length_isortBy, h4]; rfl) hc
      rcases ha : assignRows 0 (collapsedRows defaultCfg
          (isortBy (·.1) (sizedGroups defaultCfg recs))) with e | res
      · have : idInfo defaultCfg recs = .error e := by
          simp [idInfo, h4, hc, ha, Bind.bind, Except.bind]
        rw [this] at h
        exact absurd h (by simp)
      · rw [idInfo_ok_of_gates defaultCfg recs res h4 hc ha] at h
        have hpr : pr = (res, isortBy (·.1) (sizedGroups defaultCfg recs)) := by
          simpa using h.symm
        subst hpr
        obtain ⟨-, hpairs⟩ := assignRows_spec _ 0 res ha
        rw [hpairs, hcnt]
        rfl

/-- C6, witness: the concrete world input passes the gates and its label
rows carry the canonical pairs. -/
theorem C6_witness :
    idInfo defaultCfg wAll = .ok wPr ∧ idPairs wPr.1 = canonicalPairs :=
  ⟨by decide, C6_canonical wAll wPr (by decide)⟩

/-! ### Nearest-label lemmas (Fragment Classifier) -/

theorem nearestScan_from_some (c : ℤ × ℤ) (labels : List CntrDict) :
    ∀ (d0 : ℤ) (s0 : Option String) (n0 : Option ℕ),
      (labels.foldl (nearestStep c) (some (d0, s0, n0)) = some (d0, s0, n0) ∧
        ∀ l ∈ labels, d0 ≤ sqDist c (l.cx, l.cy)) ∨
      (∃ pre lab suf, labels = pre ++ lab :: suf ∧
        sqDist c (lab.cx, lab.cy) < d0 ∧
        (∀ p ∈ pre, sqDist c (lab.cx, lab.cy) < sqDist c (p.cx, p.cy)) ∧
        (∀ l ∈ labels, sqDist c (lab.cx, lab.cy) ≤ sqDist c (l.cx, l.cy)) ∧
        labels.foldl (nearestStep c) (some (d0, s0, n0)) =
          some (sqDist c (lab.cx, lab.cy), lab.chromo_id, lab.chromo_idx)) := by
  induction labels with
  | nil => intro d0 s0 n0; exact Or.inl ⟨rfl, by simp⟩
  | cons l t ih =>
    intro d0 s0 n0
    by_cases hd : sqDist c (l.cx, l.cy) < d0
    · have hstep : nearestStep c (some (d0, s0, n0)) l =
          some (sqDist c (l.cx, l.cy), l.chromo_id, l.chromo_idx) := by
        simp [nearestStep, hd]
      rcases ih (sqDist c (l.cx, l.cy)) l.chromo_id l.chromo_idx with
        ⟨hres, hall⟩ | ⟨pre, lab, suf, hsplit, hlt, hpre, hall, hres⟩
      · refine Or.inr ⟨[], l, t, rfl, hd, by simp, ?_, ?_⟩
        · intro x hx
          rcases List.mem_cons.mp hx with rfl | hx
          · exact le_refl _
          · exact hall x hx
        · simpa [List.foldl_cons, hstep] using hres
      · refine Or.inr ⟨l :: pre, lab, suf, by simp [hsplit], lt_trans hlt hd, ?_, ?_, ?_⟩
        · intro p hp
          rcases List.mem_cons.mp hp with rfl | hp
          · exact hlt
          · exact hpre p hp
        · intro x hx
          rcases List.mem_cons.mp hx with rfl | hx
          · exact le_of_lt hlt
          · exact hall x hx
        · simpa [List.foldl_cons, hstep] using hres
    · push_neg at hd
      have hstep : nearestStep c (some (d0, s0, n0)) l = some (d0, s0, n0) := by
        simp [nearestStep, not_lt.mpr hd]
      rcases ih d0 s0 n0 with
        ⟨hres, hall⟩ | ⟨pre, lab, suf, hsplit, hlt, hpre, hall, hres⟩
      · refine Or.inl ⟨by simpa [List.foldl_cons, hstep] using hres, ?_⟩
        intro x hx
        rcases List.mem_cons.mp hx with rfl | hx
        · exact hd
        · exact hall x hx
      · refine Or.inr ⟨l :: pre, lab, suf, by simp [hsplit], hlt, ?_, ?_, ?_⟩
        · intro p hp
          rcases List.mem_cons.mp hp with rfl | hp
          · exact lt_of_lt_of_le hlt hd
          · exact hpre p hp
        · intro x hx
          rcases List.mem_cons.mp hx with rfl | hx
          · exact le_of_lt (lt_of_lt_of_le hlt hd)
          · exact hall x hx
        · simpa [List.foldl_cons, hstep] using hres

theorem nearestScan_spec (c : ℤ × ℤ) (labels : List CntrDict) (h : labels ≠ []) :
    ∃ pre lab suf, labels = pre ++ lab :: suf ∧
      nearestScan c labels =
        some (sqDist c (lab.cx, lab.cy), lab.chromo_id, lab.chromo_idx) ∧
      (∀ p ∈ pre, sqDist c (lab.cx, lab.cy) < sqDist c (p.cx, p.cy)) ∧
      (∀ l ∈ labels, sqDist c (lab.cx, lab.cy) ≤ sqDist c (l.cx, l.cy)) := by
  cases labels with
  | nil => exact absurd rfl h
  | cons l t =>
    have hfirst : nearestScan c (l :: t) =
        t.foldl (nearestStep c)
          (some (sqDist c (l.cx, l.cy), l.chromo_id, l.chromo_idx)) := by
      simp [nearestScan, List.foldl_cons, nearestStep]
    rcases nearestScan_from_some c t (sqDist c (l.cx, l.cy)) l.chromo_id l.chromo_idx with
      ⟨hres, hall⟩ | ⟨pre, lab, suf, hsplit, hlt, hpre, hall, hres⟩
    · refine ⟨[], l, t, rfl, by rw [hfirst, hres], by simp, ?_⟩
      intro x hx
      rcases List.mem_cons.mp hx with rfl | hx
      · exact le_refl _
      · exact hall x hx
    · refine ⟨l :: pre, lab, suf, by simp [hsplit], by rw [hfirst, hres], ?_, ?_⟩
      · intro p hp
        rcases List.mem_cons.mp hp with rfl | hp
        · exact hlt
        · exact hpre p hp
      · intro x hx
        rcases List.mem_cons.mp hx with rfl | hx
        · exact le_of_lt hlt
        · exact hall x hx

/-- C7.  Every classified record carries the identifier, index and (squared)
distance of the first label in its band attaining the minimal centroid
distance: the label list splits as `pre ++ lab :: suf` with every label in
`pre` strictly farther and every label at least `lab`'s distance away. -/
theorem C7_nearest (idRows : List (ℤ × List CntrDict)) (left : List CntrDict)
    (kv : ℤ × List CntrDict) (hkv : kv ∈ classifyStage idRows left)
    (r : CntrDict) (hr : r ∈ kv.2) (hne : lookupRow idRows kv.1 ≠ []) :
    ∃ pre lab suf, lookupRow idRows kv.1 = pre ++ lab :: suf ∧
      r.chromo_id = lab.chromo_id ∧ r.chromo_idx = lab.chromo_idx ∧
      r.distance_to_id = some (sqDist (r.cx, r.cy) (lab.cx, lab.cy)) ∧
      (∀ p ∈ pre,
        sqDist (r.cx, r.cy) (lab.cx, lab.cy) < sqDist (r.cx, r.cy) (p.cx, p.cy)) ∧
      (∀ l ∈ lookupRow idRows kv.1,
        sqDist (r.cx, r.cy) (lab.cx, lab.cy) ≤ sqDist (r.cx, r.cy) (l.cx, l.cy)) := by
  simp only [classifyStage, List.map_map, List.mem_map] at hkv
  obtain ⟨kb, hkb, rfl⟩ := hkv
  simp only [Function.comp] at hr ⊢
  obtain ⟨r0, hr0, rfl⟩ := List.mem_map.mp hr
  obtain ⟨pre, lab, suf, hsplit, hscan, hpre, hall⟩ :=
    nearestScan_spec (r0.cx, r0.cy) (lookupRow idRows kb.1) (by simpa using hne)
  refine ⟨pre, lab, suf, by simpa using hsplit, ?_⟩
  simp only [assignNearest, hscan]
  refine ⟨by simp, by simp, by simp, by simpa using hpre, by simpa using hall⟩

/-! ### Fragment Merger: idempotence on non-fragmented bands -/

theorem mergeIdGroup_skip (cfg : Config) (st : List CntrDict × List ℕ)
    (cid : Option String)
    (h : (st.1.filter (fun r => r.chromo_id = cid)).length ≤ 1 ∨
      (listMax ((st.1.filter (fun r => r.chromo_id = cid)).map (·.area2)) ≠ 0 ∧
        listMin ((st.1.filter (fun r => r.chromo_id = cid)).map (·.area2)) * cfg.spRatioDen >
          cfg.spRatioNum *
            listMax ((st.1.filter (fun r => r.chromo_id = cid)).map (·.area2)))) :
    mergeIdGroup cfg st cid = .ok st := by
  rcases h with h1 | ⟨hmax, hgate⟩
  · simp [mergeIdGroup, h1]
  · by_cases h1 : (st.1.filter (fun r => r.chromo_id = cid)).length ≤ 1
    · simp [mergeIdGroup, h1]
    · simp [mergeIdGroup, h1, hmax, hgate]

/-- C8.  If every identifier present in a band has at most one candidate or
a min/max area ratio strictly above the configured small-piece threshold,
the merger leaves the band's records and the deletion list exactly as they
were: no merge is performed, no record count or descriptor changes. -/
theorem C8_idempotent (cfg : Config) (recs : List CntrDict) (dels : List ℕ)
    (h : ∀ cid ∈ firstDedup (recs.map (·.chromo_id)),
      (recs.filter (fun r => r.chromo_id = cid)).length ≤ 1 ∨
      (listMax ((recs.filter (fun r => r.chromo_id = cid)).map (·.area2)) ≠ 0 ∧
        listMin ((recs.filter (fun r => r.chromo_id = cid)).map (·.area2)) * cfg.spRatioDen >
          cfg.spRatioNum *
            listMax ((recs.filter (fun r => r.chromo_id = cid)).map (·.area2)))) :
    mergeBand cfg recs dels = .ok (recs, dels) := by
  have aux : ∀ l : List (Option String),
      (∀ cid ∈ l,
        (recs.filter (fun r => r.chromo_id = cid)).length ≤ 1 ∨
        (listMax ((recs.filter (fun r => r.chromo_id = cid)).map (·.area2)) ≠ 0 ∧
          listMin ((recs.filter (fun r => r.chromo_id = cid)).map (·.area2)) * cfg.spRatioDen >
            cfg.spRatioNum *
              listMax ((recs.filter (fun r => r.chromo_id = cid)).map (·.area2)))) →
      l.foldlM (mergeIdGroup cfg) (recs, dels) = .ok (recs, dels) := by
    intro l
    induction l with
    | nil => intro _; rfl
    | cons c t ih =>
      intro hl
      rw [List.foldlM_cons, mergeIdGroup_skip cfg (recs, dels) c (hl c (by simp))]
      simpa using ih (fun cid hcid => hl cid (List.mem_cons_of_mem c hcid))
  exact aux _ h

/-- C8, witness: two same-identifier records with equal areas (ratio 1 >
2/5) are left untouched by the merger. -/
theorem C8_witness :
    (∀ cid ∈ firstDedup ([nr1, nr2].map (·.chromo_id)),
      (([nr1, nr2].filter (fun r => r.chromo_id = cid)).length ≤ 1 ∨
      (listMax (([nr1, nr2].filter (fun r => r.chromo_id = cid)).map (·.area2)) ≠ 0 ∧
        listMin (([nr1, nr2].filter (fun r => r.chromo_id = cid)).map (·.area2)) *
            defaultCfg.spRatioDen >
          defaultCfg.spRatioNum *
            listMax (([nr1, nr2].filter (fun r => r.chromo_id = cid)).map (·.area2))))) ∧
    mergeBand defaultCfg [nr1, nr2] [] = .ok ([nr1, nr2], []) :=
  ⟨by decide, C8_idempotent defaultCfg [nr1, nr2] [] (by decide)⟩

/-! ### Occurrence counting through the Fragment Classifier (claim C1) -/

theorem insBy_perm {α : Type} (f : α → ℤ) (x : α) :
    ∀ m : List α, (insBy f x m).Perm (x :: m) := by
  intro m
  induction m with
  | nil => rfl
  | cons y s ihm =>
    simp only [insBy]
    by_cases h : f x < f y
    · rw [if_pos h]
    · rw [if_neg h]
      exact (ihm.cons y).trans (List.Perm.swap x y s)

theorem isortBy_perm {α : Type} (f : α → ℤ) (l : List α) : (isortBy f l).Perm l := by
  induction l with
  | nil => rfl
  | cons x t ih => exact (insBy_perm f x (isortBy f t)).trans (ih.cons x)

theorem assignNearest_cntr_idx (labels : List CntrDict) (x : CntrDict) :
    (assignNearest labels x).cntr_idx = x.cntr_idx := by
  rcases h : nearestScan (x.cx, x.cy) labels with _ | ⟨d, cid, cidx⟩ <;>
    simp [assignNearest, h]

theorem assignNearest_geom (labels : List CntrDict) (x : CntrDict) :
    (assignNearest labels x).cntr = x.cntr ∧ (assignNearest labels x).cx = x.cx ∧
    (assignNearest labels x).cy = x.cy ∧ (assignNearest labels x).area2 = x.area2 := by
  rcases h : nearestScan (x.cx, x.cy) labels with _ | ⟨d, cid, cidx⟩ <;>
    simp [assignNearest, h]

theorem occCount_upsert (k : ℤ) (r : CntrDict) (m : List (ℤ × List CntrDict)) (i : ℕ) :
    occCount (upsert k r m) i = occCount m i + (if r.cntr_idx = i then 1 else 0) := by
  induction m with
  | nil =>
    by_cases hi : r.cntr_idx = i <;>
      simp [upsert, occCount, List.filter_cons, hi]
  | cons kv t ih =>
    by_cases h : kv.1 = k
    · by_cases hi : r.cntr_idx = i <;>
        simp [upsert, if_pos h, occCount, List.filter_append, List.filter_cons, hi] <;>
        try omega
    · simp only [upsert, if_neg h, occCount, List.map_cons, List.sum_cons] at ih ⊢
      omega

theorem occCount_orgBands (keys : List ℤ) (left : List CntrDict) (i : ℕ) :
    occCount (orgBands keys left) i =
      (left.filter fun r => r.cntr_idx = i ∧ (bandOf keys r.cy).isSome).length := by
  have aux : ∀ (l : List CntrDict) (m : List (ℤ × List CntrDict)),
      occCount
        (l.foldl
          (fun m r =>
            match bandOf keys r.cy with
            | some k => upsert k r m
            | none => m)
          m) i =
      occCount m i + (l.filter fun r => r.cntr_idx = i ∧ (bandOf keys r.cy).isSome).length := by
    intro l
    induction l with
    | nil => intro m; simp
    | cons r t ih =>
      intro m
      rcases hb : bandOf keys r.cy with _ | k
      · by_cases hi : r.cntr_idx = i <;>
          · simp only [List.foldl_cons, hb, ih]
            simp [List.filter_cons, hi, hb]
      · by_cases hi : r.cntr_idx = i
        · simp only [List.foldl_cons, hb, ih, occCount_upsert]
          simp [List.filter_cons, hi, hb]
          omega
        · simp only [List.foldl_cons, hb, ih, occCount_upsert]
          simp [List.filter_cons, hi, hb]
  simpa [orgBands, occCount] using aux left []

theorem occCount_classifyStage (idRows : List (ℤ × List CntrDict))
    (left : List CntrDict) (i : ℕ) :
    occCount (classifyStage idRows left) i =
      (left.filter fun r =>
        r.cntr_idx = i ∧ (bandOf (idRows.map (·.1)) r.cy).isSome).length := by
  rw [← occCount_orgBands (idRows.map (·.1)) left i]
  simp only [classifyStage, occCount, List.map_map]
  congr 1
  apply List.map_congr_left
  intro kv _
  simp only [Function.comp]
  have h1 : ((isortBy (·.cx) kv.2).map (assignNearest (lookupRow idRows kv.1))).filter
      (fun r => r.cntr_idx = i) =
      ((isortBy (·.cx) kv.2).filter fun r => r.cntr_idx = i).map
        (assignNearest (lookupRow idRows kv.1)) := by
    rw [List.filter_map]
    congr 1
    apply List.filter_congr
    intro x _
    simp [Function.comp, assignNearest_cntr_idx]
  rw [h1, List.length_map]
  exact ((isortBy_perm (·.cx) kv.2).filter _).length_eq

theorem mem_upsert_invariant (Q : ℤ → CntrDict → Prop) (k : ℤ) (r : CntrDict) :
    ∀ m : List (ℤ × List CntrDict),
      (∀ kv ∈ m, ∀ x ∈ kv.2, Q kv.1 x) → Q k r →
      ∀ kv ∈ upsert k r m, ∀ x ∈ kv.2, Q kv.1 x := by
  intro m
  induction m with
  | nil =>
    intro _ hr kv hkv x hx
    simp only [upsert, List.mem_singleton] at hkv
    subst hkv
    simp only [List.mem_singleton] at hx
    subst hx
    exact hr
  | cons kv0 t ih =>
    obtain ⟨k0, v0⟩ := kv0
    intro hm hr kv hkv x hx
    by_cases h : k0 = k
    · rw [show upsert k r ((k0, v0) :: t) = (k0, v0 ++ [r]) :: t by
        simp [upsert, h]] at hkv
      rcases List.mem_cons.mp hkv with rfl | hkv
      · rcases List.mem_append.mp hx with hx2 | hx2
        · exact hm (k0, v0) (by simp) x hx2
        · simp only [List.mem_singleton] at hx2
          subst hx2
          exact h.symm ▸ hr
      · exact hm kv (List.mem_cons_of_mem _ hkv) x hx
    · rw [show upsert k r ((k0, v0) :: t) = (k0, v0) :: upsert k r t by
        simp [upsert, h]] at hkv
      rcases List.mem_cons.mp hkv with rfl | hkv
      · exact hm (k0, v0) (by simp) x hx
      · exact ih (fun kv2 hkv2 => hm kv2 (List.mem_cons_of_mem _ hkv2)) hr kv hkv x hx

theorem orgBands_mem (keys : List ℤ) (left : List CntrDict) :
    ∀ kv ∈ orgBands keys left, ∀ x ∈ kv.2,
      x ∈ left ∧ bandOf keys x.cy = some kv.1 := by
  have aux : ∀ (l : List CntrDict) (m : List (ℤ × List CntrDict)),
      (∀ y ∈ l, y ∈ left) →
      (∀ kv ∈ m, ∀ x ∈ kv.2, x ∈ left ∧ bandOf keys x.cy = some kv.1) →
      ∀ kv ∈ l.foldl
          (fun m r =>
            match bandOf keys r.cy with
            | some k => upsert k r m
            | none => m)
          m, ∀ x ∈ kv.2, x ∈ left ∧ bandOf keys x.cy = some kv.1 := by
    intro l
    induction l with
    | nil => intro m _ hm; exact hm
    | cons r t ih =>
      intro m hl hm
      rcases hb : bandOf keys r.cy with _ | k
      · simp only [List.foldl_cons, hb]
        exact ih m (fun y hy => hl y (List.mem_cons_of_mem r hy)) hm
      · simp only [List.foldl_cons, hb]
        exact ih (upsert k r m) (fun y hy => hl y (List.mem_cons_of_mem r hy))
          (mem_upsert_invariant
            (fun k2 x => x ∈ left ∧ bandOf keys x.cy = some k2) k r m hm
            ⟨hl r (by simp), hb⟩)
  exact aux left [] (fun y hy => hy) (by simp)

theorem filter_idx_singleton (l : List CntrDict)
    (hidx : (l.map (·.cntr_idx)).Nodup) :
    ∀ r ∈ l, l.filter (fun x => x.cntr_idx = r.cntr_idx) = [r] := by
  induction l with
  | nil => intro r hr; exact absurd hr (by simp)
  | cons a t ih =>
    intro r hr
    simp only [List.map_cons, List.nodup_cons] at hidx
    rcases List.mem_cons.mp hr with rfl | hrt
    · have hnone : t.filter (fun x => x.cntr_idx = r.cntr_idx) = [] := by
        rw [List.filter_eq_nil_iff]
        intro x hx
        simp only [decide_eq_true_eq]
        intro hxa
        exact hidx.1 (hxa ▸ List.mem_map_of_mem (·.cntr_idx) hx)
      simp [List.filter_cons, hnone]
    · have hne : a.cntr_idx ≠ r.cntr_idx := by
        intro hae
        exact hidx.1 (hae ▸ List.mem_map_of_mem (·.cntr_idx) hrt)
      rw [List.filter_cons_of_neg (by simpa using hne)]
      exact ih hidx.2 r hrt

/-- C1, amended.  On contour records with pairwise-distinct indices, a
record appears in the classification output exactly once if its vertical
centroid falls strictly inside one of the bands (`bandOf` succeeds), and
zero times otherwise (it is dropped); moreover every occurrence sits in
the row keyed by its own band. -/
theorem C1_amended (idRows : List (ℤ × List CntrDict)) (left : List CntrDict)
    (hidx : (left.map (·.cntr_idx)).Nodup) (r : CntrDict) (hr : r ∈ left) :
    occCount (classifyStage idRows left) r.cntr_idx =
      (if (bandOf (idRows.map (·.1)) r.cy).isSome then 1 else 0) ∧
    (∀ kv ∈ classifyStage idRows left, ∀ x ∈ kv.2, x.cntr_idx = r.cntr_idx →
      bandOf (idRows.map (·.1)) r.cy = some kv.1) := by
  constructor
  · rw [occCount_classifyStage]
    have hsplit : left.filter
        (fun x => x.cntr_idx = r.cntr_idx ∧
          (bandOf (idRows.map (·.1)) x.cy).isSome) =
        (left.filter fun x => x.cntr_idx = r.cntr_idx).filter
          (fun x => (bandOf (idRows.map (·.1)) x.cy).isSome) := by
      rw [List.filter_filter]
      apply List.filter_congr
      intro x _
      simp [Bool.and_comm]
    rw [hsplit, filter_idx_singleton left hidx r hr]
    by_cases hbs : (bandOf (idRows.map (·.1)) r.cy).isSome
    · simp [List.filter_cons, hbs]
    · simp [List.filter_cons, hbs]
  · intro kv hkv x hx hxi
    simp only [classifyStage, List.map_map, List.mem_map] at hkv
    obtain ⟨kb, hkb, rfl⟩ := hkv
    simp only [Function.comp] at hx
    obtain ⟨x0, hx0, rfl⟩ := List.mem_map.mp hx
    have hx02 : x0 ∈ kb.2 := (mem_isortBy (·.cx) x0 kb.2).mp hx0
    obtain ⟨hxl, hband⟩ := orgBands_mem (idRows.map (·.1)) left kb hkb x0 hx02
    have hidx0 : x0.cntr_idx = r.cntr_idx := by
      rw [← assignNearest_cntr_idx (lookupRow idRows kb.1) x0]
      exact hxi
    have hx0r : x0 = r := List.inj_on_of_nodup_map hidx hxl hr hidx0
    subst hx0r
    exact hband

/-- C1, witness for the amended theorem: the main body (index 24, centroid
strictly inside band 1) appears exactly once, and the stray (index 27)
falls in no band. -/
theorem C1_amended_witness :
    (wLeft.map (·.cntr_idx)).Nodup ∧
    occCount (classifyStage wPr.1 wLeft) 24 = 1 ∧
    occCount (classifyStage wPr.1 wLeft) 27 = 0 := by
  refine ⟨by decide, ?_, ?_⟩
  · have h := (C1_amended wPr.1 wLeft (by decide) wR24 (by decide)).1
    calc occCount (classifyStage wPr.1 wLeft) 24
        = occCount (classifyStage wPr.1 wLeft) wR24.cntr_idx := by
          rw [show wR24.cntr_idx = 24 from by decide]
      _ = if (bandOf (wPr.1.map (·.1)) wR24.cy).isSome then 1 else 0 := h
      _ = 1 := by decide
  · have h := (C1_amended wPr.1 wLeft (by decide) wR27 (by decide)).1
    calc occCount (classifyStage wPr.1 wLeft) 27
        = occCount (classifyStage wPr.1 wLeft) wR27.cntr_idx := by
          rw [show wR27.cntr_idx = 27 from by decide]
      _ = if (bandOf (wPr.1.map (·.1)) wR27.cy).isSome then 1 else 0 := h
      _ = 0 := by decide

/-- C7, witness: the first record of the world's first band (the main body,
matched to label "1"). -/
theorem C7_witness :
    wKv ∈ classifyStage wPr.1 wLeft ∧ wR ∈ wKv.2 ∧
    (∃ pre lab suf, lookupRow wPr.1 wKv.1 = pre ++ lab :: suf ∧
      wR.chromo_id = lab.chromo_id ∧ wR.chromo_idx = lab.chromo_idx ∧
      wR.distance_to_id = some (sqDist (wR.cx, wR.cy) (lab.cx, lab.cy)) ∧
      (∀ p ∈ pre,
        sqDist (wR.cx, wR.cy) (lab.cx, lab.cy) < sqDist (wR.cx, wR.cy) (p.cx, p.cy)) ∧
      (∀ l ∈ lookupRow wPr.1 wKv.1,
        sqDist (wR.cx, wR.cy) (lab.cx, lab.cy) ≤ sqDist (wR.cx, wR.cy) (l.cx, l.cy))) :=
  ⟨by decide, by decide,
   C7_nearest wPr.1 wLeft wKv (by decide) wR (by decide) (by decide)⟩

/-! ### Moment additivity of the splice -/

theorem pathSum_cons_cons (f : Pt → Pt → ℤ) (p q : Pt) (t : Cntr) :
    pathSum f (p :: q :: t) = f p q + pathSum f (q :: t) := rfl

theorem cycSum_cons (f : Pt → Pt → ℤ) (p : Pt) (t : Cntr) :
    cycSum f (p :: t) = pathSum f (p :: t) + f ((p :: t).getLastD p) p := rfl

theorem pathSum_append (f : Pt → Pt → ℤ) (x : Pt) (X : Cntr) (y : Pt) (Y : Cntr) :
    pathSum f ((x :: X) ++ y :: Y) =
      pathSum f (x :: X) + f ((x :: X).getLastD x) y + pathSum f (y :: Y) := by
  induction X generalizing x with
  | nil =>
    simp only [List.nil_append, List.cons_append, pathSum_cons_cons]
    rw [show pathSum f [x] = 0 from rfl, show (List.getLastD [x] x) = x from rfl]
    ring
  | cons a T ih =>
    rw [show (x :: a :: T) ++ y :: Y = x :: a :: (T ++ y :: Y) from rfl,
      pathSum_cons_cons,
      show a :: (T ++ y :: Y) = (a :: T) ++ y :: Y from rfl, ih,
      pathSum_cons_cons,
      show (x :: a :: T).getLastD x = (a :: T).getLastD a from by
        simp only [List.getLastD_cons]]
    ring

theorem pathSum_snoc_head (f : Pt → Pt → ℤ) (x : Pt) (X : Cntr) :
    pathSum f ((x :: X) ++ [x]) = cycSum f (x :: X) := by
  rw [show ([x] : Cntr) = x :: ([] : Cntr) from rfl, pathSum_append f x X x [],
    cycSum_cons]
  rw [show pathSum f [x] = 0 from rfl]
  ring

theorem cycSum_rotate_one (f : Pt → Pt → ℤ) (a : Pt) (T : Cntr) :
    cycSum f (a :: T) = cycSum f (T ++ [a]) := by
  cases T with
  | nil => rfl
  | cons b T2 =>
    rw [show (b :: T2) ++ [a] = b :: (T2 ++ [a]) from rfl, cycSum_cons, cycSum_cons,
      pathSum_cons_cons,
      show b :: (T2 ++ [a]) = (b :: T2) ++ [a] from rfl,
      show ([a] : Cntr) = a :: ([] : Cntr) from rfl,
      pathSum_append f b T2 a [],
      show pathSum f [a] = 0 from rfl,
      show ((b :: T2) ++ [a]).getLastD b = a from List.getLastD_concat b a (b :: T2),
      show (a :: b :: T2).getLastD a = (b :: T2).getLastD b from by
        simp only [List.getLastD_cons]]
    ring

theorem cycSum_rotate (f : Pt → Pt → ℤ) (n : ℕ) :
    ∀ l : Cntr, cycSum f (l.rotate n) = cycSum f l := by
  induction n with
  | zero => intro l; simp
  | succ k ih =>
    intro l
    cases l with
    | nil => simp
    | cons a t =>
      rw [List.rotate_cons_succ, ih (t ++ [a]), cycSum_rotate_one]

theorem cycSum_splice (f : Pt → Pt → ℤ) (hdiag : ∀ p, f p p = 0)
    (hanti : ∀ p q, f p q = -f q p) (s m : Cntr) (hs : s ≠ []) (hm : m ≠ [])
    (si mi : ℕ) :
    cycSum f (spliceContours s m si mi) = cycSum f s + cycSum f m := by
  obtain ⟨x, X, hX⟩ : ∃ x X, s.rotate si = x :: X := by
    cases h : s.rotate si with
    | nil =>
      exact absurd (by simpa using congrArg List.length h) (by simpa using hs)
    | cons x X => exact ⟨x, X, rfl⟩
  obtain ⟨y, Y, hY⟩ : ∃ y Y, m.rotate mi = y :: Y := by
    cases h : m.rotate mi with
    | nil =>
      exact absurd (by simpa using congrArg List.length h) (by simpa using hm)
    | cons y Y => exact ⟨y, Y, rfl⟩
  have hsplice : spliceContours s m si mi = (x :: (X ++ [x])) ++ (y :: (Y ++ [y])) := by
    simp [spliceContours, hX, hY]
  have hlast : ((x :: (X ++ [x])) ++ (y :: (Y ++ [y]))).getLastD x = y := by
    rw [show (x :: (X ++ [x])) ++ (y :: (Y ++ [y])) =
      ((x :: (X ++ [x])) ++ (y :: Y)) ++ [y] from by simp]
    exact List.getLastD_concat x y _
  have hpath : pathSum f ((x :: (X ++ [x])) ++ (y :: (Y ++ [y]))) =
      cycSum f (x :: X) + f x y + cycSum f (y :: Y) := by
    rw [pathSum_append f x (X ++ [x]) y (Y ++ [y]),
      show (x :: (X ++ [x])).getLastD x = x from by
        rw [show x :: (X ++ [x]) = (x :: X) ++ [x] from rfl]
        exact List.getLastD_concat x x (x :: X),
      show x :: (X ++ [x]) = (x :: X) ++ [x] from rfl, pathSum_snoc_head,
      show y :: (Y ++ [y]) = (y :: Y) ++ [y] from rfl, pathSum_snoc_head]
  have hcyc : cycSum f ((x :: (X ++ [x])) ++ (y :: (Y ++ [y]))) =
      pathSum f ((x :: (X ++ [x])) ++ (y :: (Y ++ [y]))) + f y x := by
    rw [show (x :: (X ++ [x])) ++ (y :: (Y ++ [y])) =
      x :: ((X ++ [x]) ++ (y :: (Y ++ [y]))) from rfl, cycSum_cons]
    rw [show x :: ((X ++ [x]) ++ (y :: (Y ++ [y]))) =
      (x :: (X ++ [x])) ++ (y :: (Y ++ [y])) from rfl, hlast]
  rw [hsplice, hcyc, hpath, ← hX, ← hY, cycSum_rotate, cycSum_rotate]
  have h1 := hanti x y
  linarith [h1]

theorem shoelace_splice (s m : Cntr) (hs : s ≠ []) (hm : m ≠ []) (si mi : ℕ) :
    shoelace (spliceContours s m si mi) = shoelace s + shoelace m :=
  cycSum_splice cross (fun p => by simp only [cross]; ring)
    (fun p q => by simp only [cross]; ring) s m hs hm si mi

theorem raw10_splice (s m : Cntr) (hs : s ≠ []) (hm : m ≠ []) (si mi : ℕ) :
    raw10 (spliceContours s m si mi) = raw10 s + raw10 m :=
  cycSum_splice _ (fun p => by simp only [cross]; ring)
    (fun p q => by simp only [cross]; ring) s m hs hm si mi

theorem raw01_splice (s m : Cntr) (hs : s ≠ []) (hm : m ≠ []) (si mi : ℕ) :
    raw01 (spliceContours s m si mi) = raw01 s + raw01 m :=
  cycSum_splice _ (fun p => by simp only [cross]; ring)
    (fun p q => by simp only [cross]; ring) s m hs hm si mi

theorem shoelace_nil : shoelace ([] : Cntr) = 0 := rfl

theorem ne_nil_of_shoelace_pos (c : Cntr) (h : 0 < shoelace c) : c ≠ [] := by
  intro hc
  rw [hc] at h
  exact absurd h (by simp [shoelace, cycSum])

/-! ### Generic machinery for the merger folds -/

theorem foldlM_except_invariant {α σ : Type} (g : σ → α → Except KErr σ)
    (I : σ → Prop) (l : List α)
    (hstep : ∀ s a s2, a ∈ l → I s → g s a = .ok s2 → I s2) :
    ∀ s s2, I s → l.foldlM g s = .ok s2 → I s2 := by
  induction l with
  | nil =>
    intro s s2 hI h
    have hs : s = s2 := by simpa [pure, Except.pure] using h
    exact hs ▸ hI
  | cons a t ih =>
    intro s s2 hI h
    rw [List.foldlM_cons] at h
    rcases hg : g s a with e | s1
    · rw [hg] at h
      exact absurd h (by simp [Bind.bind, Except.bind])
    · rw [hg] at h
      have h2 : t.foldlM g s1 = .ok s2 := by
        simpa [Bind.bind, Except.bind] using h
      exact ih (fun s' a' s2' ha' => hstep s' a' s2' (List.mem_cons_of_mem a ha'))
        s1 s2 (hstep s a s1 (by simp) hI hg) h2

theorem foldlM_append_ok {α σ : Type} (g : σ → α → Except KErr σ)
    (l1 l2 : List α) :
    ∀ (s s2 : σ), (l1 ++ l2).foldlM g s = .ok s2 →
      ∃ s1, l1.foldlM g s = .ok s1 ∧ l2.foldlM g s1 = .ok s2 := by
  induction l1 with
  | nil => intro s s2 h; exact ⟨s, rfl, by simpa using h⟩
  | cons a t ih =>
    intro s s2 h
    rw [List.cons_append, List.foldlM_cons] at h
    rcases hg : g s a with e | s0
    · rw [hg] at h
      exact absurd h (by simp [Bind.bind, Except.bind])
    · rw [hg] at h
      have h2 : (t ++ l2).foldlM g s0 = .ok s2 := by
        simpa [Bind.bind, Except.bind] using h
      obtain ⟨s1, hA, hB⟩ := ih s0 s2 h2
      refine ⟨s1, ?_, hB⟩
      rw [List.foldlM_cons, hg]
      simpa [Bind.bind, Except.bind] using hA

theorem firstDedup_aux {α : Type} [DecidableEq α] (l : List α) :
    ∀ acc : List α, acc.Nodup →
      (l.foldl (fun acc x => if x ∈ acc then acc else acc ++ [x]) acc).Nodup ∧
      (∀ x, x ∈ l.foldl (fun acc x => if x ∈ acc then acc else acc ++ [x]) acc ↔
        x ∈ acc ∨ x ∈ l) := by
  induction l with
  | nil => intro acc h; exact ⟨h, fun x => by simp⟩
  | cons a t ih =>
    intro acc h
    by_cases ha : a ∈ acc
    · simp only [List.foldl_cons, if_pos ha]
      obtain ⟨h1, h2⟩ := ih acc h
      refine ⟨h1, fun x => ?_⟩
      rw [h2 x]
      simp only [List.mem_cons]
      constructor
      · rintro (hx | hx)
        · exact Or.inl hx
        · exact Or.inr (Or.inr hx)
      · rintro (hx | rfl | hx)
        · exact Or.inl hx
        · exact Or.inl ha
        · exact Or.inr hx
    · simp only [List.foldl_cons, if_neg ha]
      have hacc : (acc ++ [a]).Nodup := by
        rw [List.nodup_append]
        exact ⟨h, List.nodup_singleton a, by simpa [List.disjoint_singleton] using ha⟩
      obtain ⟨h1, h2⟩ := ih (acc ++ [a]) hacc
      refine ⟨h1, fun x => ?_⟩
      rw [h2 x]
      simp only [List.mem_append, List.mem_singleton, List.mem_cons]
      tauto

theorem firstDedup_nodup {α : Type} [DecidableEq α] (l : List α) :
    (firstDedup l).Nodup :=
  (firstDedup_aux l [] List.nodup_nil).1

theorem mem_firstDedup {α : Type} [DecidableEq α] (x : α) (l : List α) :
    x ∈ firstDedup l ↔ x ∈ l := by
  rw [show firstDedup l = l.foldl (fun acc x => if x ∈ acc then acc else acc ++ [x]) []
      from rfl,
    (firstDedup_aux l [] List.nodup_nil).2 x]
  simp

theorem filter_map_of_pres {α : Type} (l : List α) (g : α → α) (p : α → Bool)
    (h : ∀ r ∈ l, p (g r) = p r) :
    (l.map g).filter p = (l.filter p).map g := by
  rw [List.filter_map]
  congr 1
  exact List.filter_congr h

theorem map_idx_replace (l : List CntrDict) (j : ℕ) (m2 : CntrDict)
    (hj : m2.cntr_idx = j) :
    (l.map (fun r => if r.cntr_idx = j then m2 else r)).map (·.cntr_idx) =
      l.map (·.cntr_idx) := by
  rw [List.map_map]
  apply List.map_congr_left
  intro r _
  simp only [Function.comp]
  by_cases h : r.cntr_idx = j
  · simp [h, hj]
  · simp [h]

theorem nearestMainStep_cases (c : Cntr) (best : Option (ℤ × CntrDict × ℕ × ℕ))
    (m : CntrDict) :
    nearestMainStep c best m = best ∨
      ∃ d si mi, nearestMainStep c best m = some (d, m, si, mi) := by
  rcases hcp : closestPair c m.cntr with _ | ⟨dc, sic, mic⟩
  · exact Or.inl (by simp [nearestMainStep, hcp])
  · rcases best with _ | ⟨dm, mm, sim, mim⟩
    · exact Or.inr ⟨dc, sic, mic, by simp [nearestMainStep, hcp]⟩
    · by_cases hlt : dc < dm
      · exact Or.inr ⟨dc, sic, mic, by simp [nearestMainStep, hcp, hlt]⟩
      · exact Or.inl (by simp [nearestMainStep, hcp, hlt])

theorem nearestMain_mem (c : Cntr) (mains : List CntrDict) (d : ℤ) (m : CntrDict)
    (si mi : ℕ) (h : nearestMain c mains = some (d, m, si, mi)) : m ∈ mains := by
  have aux : ∀ (l : List CntrDict) (acc : Option (ℤ × CntrDict × ℕ × ℕ)),
      (∀ d2 m2 si2 mi2, acc = some (d2, m2, si2, mi2) → m2 ∈ mains) →
      (∀ x ∈ l, x ∈ mains) →
      ∀ d2 m2 si2 mi2, l.foldl (nearestMainStep c) acc = some (d2, m2, si2, mi2) →
        m2 ∈ mains := by
    intro l
    induction l with
    | nil => intro acc hacc _ d2 m2 si2 mi2 hh; exact hacc d2 m2 si2 mi2 hh
    | cons a t ih =>
      intro acc hacc hl d2 m2 si2 mi2 hh
      rw [List.foldl_cons] at hh
      refine ih (nearestMainStep c acc a) ?_
        (fun x hx => hl x (List.mem_cons_of_mem a hx)) d2 m2 si2 mi2 hh
      intro d3 m3 si3 mi3 h3
      rcases nearestMainStep_cases c acc a with he | ⟨d4, si4, mi4, he⟩
      · exact hacc d3 m3 si3 mi3 (he ▸ h3)
      · rw [he] at h3
        have : a = m3 := by simpa using congrArg (fun o =>
          (Option.map (fun pr : ℤ × CntrDict × ℕ × ℕ => pr.2.1) o)) h3
        exact this ▸ hl a (by simp)
  exact aux mains none (by simp) (fun x hx => hx) d m si mi h

theorem cpInner_isSome (pa : ℕ × Pt) (acc2 : Option (ℤ × ℕ × ℕ)) (pb : ℕ × Pt) :
    (cpInner pa acc2 pb).isSome := by
  rcases acc2 with _ | ⟨dm, sim, mim⟩
  · simp [cpInner]
  · by_cases h : sqDist pa.2 pb.2 < dm <;> simp [cpInner, h]

theorem foldl_cpInner_isSome (pa : ℕ × Pt) (lb : List (ℕ × Pt)) :
    ∀ acc2 : Option (ℤ × ℕ × ℕ), acc2.isSome → (lb.foldl (cpInner pa) acc2).isSome := by
  induction lb with
  | nil => intro acc2 h; exact h
  | cons pb t ih =>
    intro acc2 _
    rw [List.foldl_cons]
    exact ih (cpInner pa acc2 pb) (cpInner_isSome pa acc2 pb)

theorem closestPair_isSome (a b : Cntr) (ha : a ≠ []) (hb : b ≠ []) :
    (closestPair a b).isSome := by
  obtain ⟨pa, ra, hA⟩ : ∃ pa ra, a.enum = pa :: ra := by
    cases h : a.enum with
    | nil => exact absurd (by simpa using congrArg List.length h) (by simpa using ha)
    | cons pa ra => exact ⟨pa, ra, rfl⟩
  obtain ⟨pb, rb, hB⟩ : ∃ pb rb, b.enum = pb :: rb := by
    cases h : b.enum with
    | nil => exact absurd (by simpa using congrArg List.length h) (by simpa using hb)
    | cons pb rb => exact ⟨pb, rb, rfl⟩
  have hpres : ∀ (l : List (ℕ × Pt)) (acc : Option (ℤ × ℕ × ℕ)), acc.isSome →
      (l.foldl (fun acc pa => b.enum.foldl (cpInner pa) acc) acc).isSome := by
    intro l
    induction l with
    | nil => intro acc h; exact h
    | cons pa2 t ih =>
      intro acc h
      rw [List.foldl_cons]
      exact ih _ (foldl_cpInner_isSome pa2 b.enum acc h)
  rw [closestPair, hA, List.foldl_cons]
  apply hpres
  rw [hB, List.foldl_cons]
  exact foldl_cpInner_isSome pa rb _ (cpInner_isSome pa none pb)

theorem listMax_pair (x y : ℤ) : listMax [x, y] = max x y := rfl

theorem listMin_pair (x y : ℤ) : listMin [x, y] = min x y := rfl

theorem recomputeMerged_fields (m : CntrDict) (c : Cntr) (m2 : CntrDict)
    (h : recomputeMerged m c = .ok m2) :
    m2.chromo_id = m.chromo_id ∧ m2.cntr_idx = m.cntr_idx ∧
    m2.chromo_idx = m.chromo_idx ∧ m2.cntr = c ∧
    m2.area2 = abs (shoelace c) ∧
    m2.cx = pyIntDiv (raw10 c) (3 * shoelace c) ∧
    m2.cy = pyIntDiv (raw01 c) (3 * shoelace c) ∧ shoelace c ≠ 0 := by
  unfold recomputeMerged at h
  by_cases hS : shoelace c = 0
  · rw [if_pos hS] at h
    exact absurd h (by simp)
  · rw [if_neg hS] at h
    have hm : m2 = { m with
        cntr := c
        area2 := abs (shoelace c)
        cx := pyIntDiv (raw10 c) (3 * shoelace c)
        cy := pyIntDiv (raw01 c) (3 * shoelace c) } := by
      simpa using h.symm
    subst hm
    simp [hS]

/-- Merging one small piece of a foreign identifier `cid2` does not disturb
the records carrying `cid`, keeps indices distinct, and only schedules the
foreign small piece for deletion. -/
theorem mergeOneSmall_other (cid cid2 : Option String) (hne : cid2 ≠ cid)
    (L : List CntrDict) (ja jb : ℕ) (mainIdxs : List ℕ)
    (st : List CntrDict × List ℕ) (small : CntrDict)
    (st2 : List CntrDict × List ℕ)
    (hsm_ja : small.cntr_idx ≠ ja) (hsm_jb : small.cntr_idx ≠ jb)
    (hI : groupInvar cid L ja jb st)
    (hmains : ∀ r ∈ st.1, r.cntr_idx ∈ mainIdxs → r.chromo_id = cid2)
    (hrun : mergeOneSmall mainIdxs st small = .ok st2) :
    groupInvar cid L ja jb st2 ∧
    (∀ r ∈ st2.1, r.cntr_idx ∈ mainIdxs → r.chromo_id = cid2) := by
  simp only [mergeOneSmall] at hrun
  rcases hnm : nearestMain small.cntr (st.1.filter fun r => r.cntr_idx ∈ mainIdxs) with
    _ | ⟨d, m, si, mi⟩
  · rw [hnm] at hrun
    exact absurd hrun (by simp)
  · rw [hnm] at hrun
    replace hrun : (do
        let m' ← recomputeMerged m (spliceContours small.cntr m.cntr si mi)
        Except.ok (st.1.map (fun r => if r.cntr_idx = m.cntr_idx then m' else r),
          st.2 ++ [small.cntr_idx])) = Except.ok st2 := hrun
    rcases hrec : recomputeMerged m (spliceContours small.cntr m.cntr si mi) with e | m2
    · rw [hrec] at hrun
      exact absurd hrun (by simp [Bind.bind, Except.bind])
    · rw [hrec] at hrun
      have hst2 : st2 = (st.1.map (fun r => if r.cntr_idx = m.cntr_idx then m2 else r),
          st.2 ++ [small.cntr_idx]) := by
        simpa [Bind.bind, Except.bind] using hrun.symm
      subst hst2
      have hmem : m ∈ st.1.filter fun r => r.cntr_idx ∈ mainIdxs :=
        nearestMain_mem small.cntr _ d m si mi hnm
      have hm1 : m ∈ st.1 := (List.mem_filter.mp hmem).1
      have hmIdx : m.cntr_idx ∈ mainIdxs := by
        simpa using (List.mem_filter.mp hmem).2
      have hmid : m.chromo_id = cid2 := hmains m hm1 hmIdx
      obtain ⟨hf_id, hf_idx, -, -, -, -, -, -⟩ := recomputeMerged_fields m _ m2 hrec
      obtain ⟨hL, hnd, hja, hjb⟩ := hI
      have hmap : (st.1.map (fun r => if r.cntr_idx = m.cntr_idx then m2 else r)).map
          (·.cntr_idx) = st.1.map (·.cntr_idx) :=
        map_idx_replace st.1 m.cntr_idx m2 hf_idx
      have hpw : ∀ r ∈ st.1,
          (decide ((if r.cntr_idx = m.cntr_idx then m2 else r).chromo_id = cid)) =
          (decide (r.chromo_id = cid)) := by
        intro r hrm
        by_cases hidx : r.cntr_idx = m.cntr_idx
        · have hrid : r.chromo_id = cid2 := hmains r hrm (by rw [hidx]; exact hmIdx)
          simp [hidx, hf_id, hmid, hrid]
        · simp [hidx]
      refine ⟨⟨?_, ?_, ?_, ?_⟩, ?_⟩
      · rw [filter_map_of_pres st.1 _ _ hpw, hL]
        have hgid : ∀ r ∈ L, (if r.cntr_idx = m.cntr_idx then m2 else r) = r := by
          intro r hrL
          have hr1 : r ∈ st.1 ∧ r.chromo_id = cid := by
            rw [← hL] at hrL
            have hmf := List.mem_filter.mp hrL
            exact ⟨hmf.1, by simpa using hmf.2⟩
          by_cases hidx : r.cntr_idx = m.cntr_idx
          · exact absurd
              ((hmains r hr1.1 (by rw [hidx]; exact hmIdx)).symm.trans hr1.2) hne
          · simp [hidx]
        calc L.map (fun r => if r.cntr_idx = m.cntr_idx then m2 else r)
            = L.map id := List.map_congr_left hgid
          _ = L := List.map_id L
      · rw [hmap]
        exact hnd
      · intro hcon
        rcases List.mem_append.mp hcon with hcon2 | hcon2
        · exact hja hcon2
        · exact hsm_ja (List.mem_singleton.mp hcon2).symm
      · intro hcon
        rcases List.mem_append.mp hcon with hcon2 | hcon2
        · exact hjb hcon2
        · exact hsm_jb (List.mem_singleton.mp hcon2).symm
      · intro r2 hr2 hr2idx
        obtain ⟨r, hr, rfl⟩ := List.mem_map.mp hr2
        by_cases hidx : r.cntr_idx = m.cntr_idx
        · simpa [hidx] using hf_id.trans hmid
        · have hri : r.cntr_idx ∈ mainIdxs := by simpa [hidx] using hr2idx
          simpa [hidx] using hmains r hr hri

/-- Processing a group with a foreign identifier leaves the `cid` records,
their distinct indices, and the protected deletion indices intact. -/
theorem mergeIdGroup_other (cfg : Config) (cid cid2 : Option String) (hne : cid2 ≠ cid)
    (L : List CntrDict) (ja jb : ℕ)
    (hjaL : ja ∈ L.map (·.cntr_idx)) (hjbL : jb ∈ L.map (·.cntr_idx))
    (st st2 : List CntrDict × List ℕ)
    (hI : groupInvar cid L ja jb st)
    (hrun : mergeIdGroup cfg st cid2 = .ok st2) :
    groupInvar cid L ja jb st2 := by
  have hmemL : ∀ j ∈ L.map (·.cntr_idx), ∃ rj, rj ∈ st.1 ∧ rj.chromo_id = cid ∧
      rj.cntr_idx = j := by
    intro j hj
    obtain ⟨rj, hrjL, hrjj⟩ := List.mem_map.mp hj
    rw [← hI.1] at hrjL
    have hmf := List.mem_filter.mp hrjL
    exact ⟨rj, hmf.1, by simpa using hmf.2, hrjj⟩
  obtain ⟨ra, hra1, hra2, hra3⟩ := hmemL ja hjaL
  obtain ⟨rb, hrb1, hrb2, hrb3⟩ := hmemL jb hjbL
  have hinj := List.inj_on_of_nodup_map hI.2.1
  simp only [mergeIdGroup] at hrun
  split at hrun
  · have h : st = st2 := by simpa using hrun
    exact h ▸ hI
  · split at hrun
    · exact absurd hrun (by simp)
    · split at hrun
      · have h : st = st2 := by simpa using hrun
        exact h ▸ hI
      · refine (foldlM_except_invariant _
          (fun s => groupInvar cid L ja jb s ∧
            ∀ r ∈ s.1, r.cntr_idx ∈
              ((st.1.filter (fun r => r.chromo_id = cid2)).filter
                (fun r => cfg.spRatioNum *
                  listMax ((st.1.filter (fun r => r.chromo_id = cid2)).map (·.area2)) ≤
                    r.area2 * cfg.spRatioDen)).map (·.cntr_idx) →
              r.chromo_id = cid2)
          _ ?_ st st2 ⟨hI, ?_⟩ hrun).1
        · intro s small s2 hsm hinv hstep
          obtain ⟨hIs, hms⟩ := hinv
          have hsm1 : small ∈ st.1.filter (fun r => r.chromo_id = cid2) :=
            List.mem_of_mem_filter hsm
          have hsm2 : small ∈ st.1 ∧ small.chromo_id = cid2 := by
            have hmf := List.mem_filter.mp hsm1
            exact ⟨hmf.1, by simpa using hmf.2⟩
          have hsja : small.cntr_idx ≠ ja := by
            intro hj
            have heq : small = ra := hinj hsm2.1 hra1 (hj.trans hra3.symm)
            exact hne ((hsm2.2.symm.trans (congrArg (·.chromo_id) heq)).trans hra2)
          have hsjb : small.cntr_idx ≠ jb := by
            intro hj
            have heq : small = rb := hinj hsm2.1 hrb1 (hj.trans hrb3.symm)
            exact hne ((hsm2.2.symm.trans (congrArg (·.chromo_id) heq)).trans hrb2)
          exact mergeOneSmall_other cid cid2 hne L ja jb _ s small s2
            hsja hsjb hIs hms hstep
        · intro r hr hridx
          obtain ⟨rm, hrm, hrmj⟩ := List.mem_map.mp hridx
          have hrm1 : rm ∈ st.1.filter (fun r => r.chromo_id = cid2) :=
            List.mem_of_mem_filter hrm
          have hrm2 : rm ∈ st.1 ∧ rm.chromo_id = cid2 := by
            have hmf := List.mem_filter.mp hrm1
            exact ⟨hmf.1, by simpa using hmf.2⟩
          have hreq : r = rm := hinj hr hrm2.1 hrmj.symm
          exact hreq ▸ hrm2.2

theorem mergeOneSmall_dels_mono (mainIdxs : List ℕ) (st : List CntrDict × List ℕ)
    (small : CntrDict) (st2 : List CntrDict × List ℕ)
    (hrun : mergeOneSmall mainIdxs st small = .ok st2) :
    ∀ j ∈ st.2, j ∈ st2.2 := by
  simp only [mergeOneSmall] at hrun
  rcases hnm : nearestMain small.cntr (st.1.filter fun r => r.cntr_idx ∈ mainIdxs) with
    _ | ⟨d, m, si, mi⟩
  · rw [hnm] at hrun
    exact absurd hrun (by simp)
  · rw [hnm] at hrun
    replace hrun : (do
        let m' ← recomputeMerged m (spliceContours small.cntr m.cntr si mi)
        Except.ok (st.1.map (fun r => if r.cntr_idx = m.cntr_idx then m' else r),
          st.2 ++ [small.cntr_idx])) = Except.ok st2 := hrun
    rcases hrec : recomputeMerged m (spliceContours small.cntr m.cntr si mi) with e | m2
    · rw [hrec] at hrun
      exact absurd hrun (by simp [Bind.bind, Except.bind])
    · rw [hrec] at hrun
      have hst2 : st2 = (st.1.map (fun r => if r.cntr_idx = m.cntr_idx then m2 else r),
          st.2 ++ [small.cntr_idx]) := by
        simpa [Bind.bind, Except.bind] using hrun.symm
      subst hst2
      intro j hj
      exact List.mem_append.mpr (Or.inl hj)

theorem mergeIdGroup_dels_mono (cfg : Config) (st : List CntrDict × List ℕ)
    (cid2 : Option String) (st2 : List CntrDict × List ℕ)
    (hrun : mergeIdGroup cfg st cid2 = .ok st2) :
    ∀ j ∈ st.2, j ∈ st2.2 := by
  simp only [mergeIdGroup] at hrun
  split at hrun
  · have h : st = st2 := by simpa using hrun
    exact h ▸ fun j hj => hj
  · split at hrun
    · exact absurd hrun (by simp)
    · split at hrun
      · have h : st = st2 := by simpa using hrun
        exact h ▸ fun j hj => hj
      · exact fun j hj => foldlM_except_invariant _ (fun s => j ∈ s.2) _
          (fun s a s2 _ hjs hstep => mergeOneSmall_dels_mono _ s a s2 hstep j hjs)
          st st2 hj hrun

/-- Processing the identifier group that holds exactly the two records
`a, b` (with positively-oriented contours and a small/large area ratio
strictly below the threshold) merges the smaller into the larger: the
group afterwards holds the untouched small piece and a merged record of
summed area, and the small piece's index is scheduled for deletion. -/
theorem mergeIdGroup_self (cfg : Config) (cid : Option String) (a b : CntrDict)
    (st st2 : List CntrDict × List ℕ)
    (hnum : 0 < cfg.spRatioNum) (hnd : cfg.spRatioNum ≤ cfg.spRatioDen)
    (hI : groupInvar cid [a, b] a.cntr_idx b.cntr_idx st)
    (hwa : a.area2 = abs (shoelace a.cntr)) (hwb : b.area2 = abs (shoelace b.cntr))
    (hsa : 0 < shoelace a.cntr) (hsb : 0 < shoelace b.cntr)
    (hratio : min a.area2 b.area2 * cfg.spRatioDen <
      cfg.spRatioNum * max a.area2 b.area2)
    (hrun : mergeIdGroup cfg st cid = .ok st2) :
    ∃ L2 m2 sm,
      groupInvar cid L2 m2.cntr_idx m2.cntr_idx st2 ∧
      (L2 = [sm, m2] ∨ L2 = [m2, sm]) ∧
      sm.cntr_idx ∈ st2.2 ∧
      m2.chromo_id = cid ∧
      m2.area2 = a.area2 + b.area2 ∧
      sm.cntr_idx ≠ m2.cntr_idx := by
  have hinj := List.inj_on_of_nodup_map hI.2.1
  have ha1 : a ∈ st.1 ∧ a.chromo_id = cid := by
    have haf : a ∈ st.1.filter (fun r => r.chromo_id = cid) := by
      rw [hI.1]; simp
    have hmf := List.mem_filter.mp haf
    exact ⟨hmf.1, by simpa using hmf.2⟩
  have hb1 : b ∈ st.1 ∧ b.chromo_id = cid := by
    have hbf : b ∈ st.1.filter (fun r => r.chromo_id = cid) := by
      rw [hI.1]; simp
    have hmf := List.mem_filter.mp hbf
    exact ⟨hmf.1, by simpa using hmf.2⟩
  have ha2pos : 0 < a.area2 := by rw [hwa]; exact abs_pos.mpr (ne_of_gt hsa)
  have hb2pos : 0 < b.area2 := by rw [hwb]; exact abs_pos.mpr (ne_of_gt hsb)
  have hden : 0 < cfg.spRatioDen := lt_of_lt_of_le hnum hnd
  have hne_ar : a.area2 ≠ b.area2 := by
    intro heq
    rw [heq, min_self, max_self] at hratio
    nlinarith
  have hab_ne : a ≠ b := fun h => hne_ar (congrArg (·.area2) h)
  have hidx_ne : a.cntr_idx ≠ b.cntr_idx := fun h => hab_ne (hinj ha1.1 hb1.1 h)
  have hanil : a.cntr ≠ [] := ne_nil_of_shoelace_pos a.cntr hsa
  have hbnil : b.cntr ≠ [] := ne_nil_of_shoelace_pos b.cntr hsb
  simp only [mergeIdGroup] at hrun
  rw [hI.1] at hrun
  simp only [List.map_cons, List.map_nil, listMax_pair, listMin_pair] at hrun
  rw [if_neg (by simp)] at hrun
  have hmaxpos : 0 < max a.area2 b.area2 := lt_max_of_lt_left ha2pos
  rw [if_neg (ne_of_gt hmaxpos)] at hrun
  rw [if_neg (not_lt.mpr (le_of_lt hratio))] at hrun
  rcases lt_or_gt_of_ne hne_ar with hab | hba
  · -- a is the small piece, b the main branch
    have hminr : min a.area2 b.area2 = a.area2 := min_eq_left hab.le
    have hmaxr : max a.area2 b.area2 = b.area2 := max_eq_right hab.le
    simp only [hminr, hmaxr] at hrun hratio
    have hsmalls_eq : [a, b].filter
        (fun r => decide (r.area2 * cfg.spRatioDen < cfg.spRatioNum * b.area2)) = [a] := by
      rw [List.filter_cons_of_pos (by simpa using hratio),
        List.filter_cons_of_neg (by simp only [decide_eq_true_eq, not_lt]; nlinarith)]
      rfl
    have hmains_eq : [a, b].filter
        (fun r => decide (cfg.spRatioNum * b.area2 ≤ r.area2 * cfg.spRatioDen)) = [b] := by
      rw [List.filter_cons_of_neg (by simp only [decide_eq_true_eq, not_le]; nlinarith),
        List.filter_cons_of_pos (by simp only [decide_eq_true_eq]; nlinarith)]
      rfl
    rw [hsmalls_eq, hmains_eq] at hrun
    simp only [List.map_cons, List.map_nil] at hrun
    rw [List.foldlM_cons] at hrun
    rcases hg : mergeOneSmall [b.cntr_idx] st a with e | s1
    · rw [hg] at hrun
      exact absurd hrun (by simp [Bind.bind, Except.bind])
    · rw [hg] at hrun
      have hs1 : s1 = st2 := by
        simpa [Bind.bind, Except.bind, pure, Except.pure] using hrun
      subst hs1
      simp only [mergeOneSmall] at hg
      have hmf : st.1.filter (fun r => decide (r.cntr_idx ∈ [b.cntr_idx])) = [b] := by
        rw [List.filter_congr (fun x _ => by simp :
          ∀ x ∈ st.1, (decide (x.cntr_idx ∈ [b.cntr_idx])) =
            (decide (x.cntr_idx = b.cntr_idx)))]
        exact filter_idx_singleton st.1 hI.2.1 b hb1.1
      rw [hmf] at hg
      obtain ⟨⟨d, si, mi⟩, hcp⟩ :=
        Option.isSome_iff_exists.mp (closestPair_isSome a.cntr b.cntr hanil hbnil)
      have hnm : nearestMain a.cntr [b] = some (d, b, si, mi) := by
        simp [nearestMain, nearestMainStep, hcp]
      rw [hnm] at hg
      replace hg : (do
          let m' ← recomputeMerged b (spliceContours a.cntr b.cntr si mi)
          Except.ok (st.1.map (fun r => if r.cntr_idx = b.cntr_idx then m' else r),
            st.2 ++ [a.cntr_idx])) = Except.ok s1 := hg
      have hsne : shoelace (spliceContours a.cntr b.cntr si mi) =
          shoelace a.cntr + shoelace b.cntr :=
        shoelace_splice a.cntr b.cntr hanil hbnil si mi
      have hSpos : 0 < shoelace (spliceContours a.cntr b.cntr si mi) := by
        rw [hsne]; linarith
      rcases hrec : recomputeMerged b (spliceContours a.cntr b.cntr si mi) with e | m2
      · simp only [recomputeMerged] at hrec
        rw [if_neg (ne_of_gt hSpos)] at hrec
        exact absurd hrec (by simp)
      · rw [hrec] at hg
        obtain ⟨hf_id, hf_idx, -, -, hf_ar, -, -, -⟩ :=
          recomputeMerged_fields b _ m2 hrec
        have hst2 : s1 = (st.1.map (fun r => if r.cntr_idx = b.cntr_idx then m2 else r),
            st.2 ++ [a.cntr_idx]) := by
          simpa [Bind.bind, Except.bind] using hg.symm
        subst hst2
        have har : m2.area2 = a.area2 + b.area2 := by
          rw [hf_ar, hsne, abs_of_pos (by linarith), hwa, hwb,
            abs_of_pos hsa, abs_of_pos hsb]
        have hpw : ∀ r ∈ st.1,
            (decide ((if r.cntr_idx = b.cntr_idx then m2 else r).chromo_id = cid)) =
            (decide (r.chromo_id = cid)) := by
          intro r hrm
          by_cases hidx : r.cntr_idx = b.cntr_idx
          · have : r = b := hinj hrm hb1.1 hidx
            subst this
            simp [hidx, hf_id]
          · simp [hidx]
        have hfil2 : (st.1.map (fun r => if r.cntr_idx = b.cntr_idx then m2 else r)).filter
            (fun r => r.chromo_id = cid) = [a, m2] := by
          rw [filter_map_of_pres st.1 _ _ hpw, hI.1]
          simp [hidx_ne, hf_idx]
        refine ⟨[a, m2], m2, a, ⟨hfil2, ?_, ?_, ?_⟩, Or.inl rfl, ?_, ?_, har, ?_⟩
        · rw [map_idx_replace st.1 b.cntr_idx m2 hf_idx]
          exact hI.2.1
        · rw [hf_idx]
          intro hcon
          rcases List.mem_append.mp hcon with h2 | h2
          · exact hI.2.2.2 h2
          · exact hidx_ne.symm (List.mem_singleton.mp h2)
        · rw [hf_idx]
          intro hcon
          rcases List.mem_append.mp hcon with h2 | h2
          · exact hI.2.2.2 h2
          · exact hidx_ne.symm (List.mem_singleton.mp h2)
        · exact List.mem_append.mpr (Or.inr (by simp))
        · exact hf_id.trans hb1.2
        · rw [hf_idx]
          exact hidx_ne
  · -- b is the small piece, a the main branch
    have hminr : min a.area2 b.area2 = b.area2 := min_eq_right hba.le
    have hmaxr : max a.area2 b.area2 = a.area2 := max_eq_left hba.le
    simp only [hminr, hmaxr] at hrun hratio
    have hsmalls_eq : [a, b].filter
        (fun r => decide (r.area2 * cfg.spRatioDen < cfg.spRatioNum * a.area2)) = [b] := by
      rw [List.filter_cons_of_neg (by simp only [decide_eq_true_eq, not_lt]; nlinarith),
        List.filter_cons_of_pos (by simpa using hratio)]
      rfl
    have hmains_eq : [a, b].filter
        (fun r => decide (cfg.spRatioNum * a.area2 ≤ r.area2 * cfg.spRatioDen)) = [a] := by
      rw [List.filter_cons_of_pos (by simp only [decide_eq_true_eq]; nlinarith),
        List.filter_cons_of_neg (by simp only [decide_eq_true_eq, not_le]; nlinarith)]
      rfl
    rw [hsmalls_eq, hmains_eq] at hrun
    simp only [List.map_cons, List.map_nil] at hrun
    rw [List.foldlM_cons] at hrun
    rcases hg : mergeOneSmall [a.cntr_idx] st b with e | s1
    · rw [hg] at hrun
      exact absurd hrun (by simp [Bind.bind, Except.bind])
    · rw [hg] at hrun
      have hs1 : s1 = st2 := by
        simpa [Bind.bind, Except.bind, pure, Except.pure] using hrun
      subst hs1
      simp only [mergeOneSmall] at hg
      have hmf : st.1.filter (fun r => decide (r.cntr_idx ∈ [a.cntr_idx])) = [a] := by
        rw [List.filter_congr (fun x _ => by simp :
          ∀ x ∈ st.1, (decide (x.cntr_idx ∈ [a.cntr_idx])) =
            (decide (x.cntr_idx = a.cntr_idx)))]
        exact filter_idx_singleton st.1 hI.2.1 a ha1.1
      rw [hmf] at hg
      obtain ⟨⟨d, si, mi⟩, hcp⟩ :=
        Option.isSome_iff_exists.mp (closestPair_isSome b.cntr a.cntr hbnil hanil)
      have hnm : nearestMain b.cntr [a] = some (d, a, si, mi) := by
        simp [nearestMain, nearestMainStep, hcp]
      rw [hnm] at hg
      replace hg : (do
          let m' ← recomputeMerged a (spliceContours b.cntr a.cntr si mi)
          Except.ok (st.1.map (fun r => if r.cntr_idx = a.cntr_idx then m' else r),
            st.2 ++ [b.cntr_idx])) = Except.ok s1 := hg
      have hsne : shoelace (spliceContours b.cntr a.cntr si mi) =
          shoelace b.cntr + shoelace a.cntr :=
        shoelace_splice b.cntr a.cntr hbnil hanil si mi
      have hSpos : 0 < shoelace (spliceContours b.cntr a.cntr si mi) := by
        rw [hsne]; linarith
      rcases hrec : recomputeMerged a (spliceContours b.cntr a.cntr si mi) with e | m2
      · simp only [recomputeMerged] at hrec
        rw [if_neg (ne_of_gt hSpos)] at hrec
        exact absurd hrec (by simp)
      · rw [hrec] at hg
        obtain ⟨hf_id, hf_idx, -, -, hf_ar, -, -, -⟩ :=
          recomputeMerged_fields a _ m2 hrec
        have hst2 : s1 = (st.1.map (fun r => if r.cntr_idx = a.cntr_idx then m2 else r),
            st.2 ++ [b.cntr_idx]) := by
          simpa [Bind.bind, Except.bind] using hg.symm
        subst hst2
        have har : m2.area2 = a.area2 + b.area2 := by
          rw [hf_ar, hsne, abs_of_pos (by linarith), hwa, hwb,
            abs_of_pos hsa, abs_of_pos hsb]
          ring
        have hpw : ∀ r ∈ st.1,
            (decide ((if r.cntr_idx = a.cntr_idx then m2 else r).chromo_id = cid)) =
            (decide (r.chromo_id = cid)) := by
          intro r hrm
          by_cases hidx : r.cntr_idx = a.cntr_idx
          · have : r = a := hinj hrm ha1.1 hidx
            subst this
            simp [hidx, hf_id]
          · simp [hidx]
        have hfil2 : (st.1.map (fun r => if r.cntr_idx = a.cntr_idx then m2 else r)).filter
            (fun r => r.chromo_id = cid) = [m2, b] := by
          rw [filter_map_of_pres st.1 _ _ hpw, hI.1]
          simp [hidx_ne.symm, hf_idx]
        refine ⟨[m2, b], m2, b, ⟨hfil2, ?_, ?_, ?_⟩, Or.inr rfl, ?_, ?_, har, ?_⟩
        · rw [map_idx_replace st.1 a.cntr_idx m2 hf_idx]
          exact hI.2.1
        · rw [hf_idx]
          intro hcon
          rcases List.mem_append.mp hcon with h2 | h2
          · exact hI.2.2.1 h2
          · exact hidx_ne (List.mem_singleton.mp h2)
        · rw [hf_idx]
          intro hcon
          rcases List.mem_append.mp hcon with h2 | h2
          · exact hI.2.2.1 h2
          · exact hidx_ne (List.mem_singleton.mp h2)
        · exact List.mem_append.mpr (Or.inr (by simp))
        · exact hf_id.trans ha1.2
        · rw [hf_idx]
          exact hidx_ne.symm

/-- C9: merge reduces count. If exactly two records of a band carry the
same identifier (both with positively-oriented contours whose doubled
area equals the absolute shoelace sum, and with pairwise-distinct contour
indices and no pending deletions of theirs), and their area ratio
smaller/larger is strictly below the configured small-piece threshold,
then after the band's merger and the deletion of absorbed pieces the
record count for that identifier is exactly 1 and the survivor's doubled
area is the sum of the two pre-merge doubled areas — in particular at
least the maximum of the two. -/
theorem C9_merge_two (cfg : Config) (cid : Option String) (a b : CntrDict)
    (recs : List CntrDict) (dels : List ℕ) (recs2 : List CntrDict) (dels2 : List ℕ)
    (hnum : 0 < cfg.spRatioNum) (hnd : cfg.spRatioNum ≤ cfg.spRatioDen)
    (hfil : recs.filter (fun r => r.chromo_id = cid) = [a, b])
    (hnd2 : (recs.map (·.cntr_idx)).Nodup)
    (hja : a.cntr_idx ∉ dels) (hjb : b.cntr_idx ∉ dels)
    (hwa : a.area2 = abs (shoelace a.cntr)) (hwb : b.area2 = abs (shoelace b.cntr))
    (hsa : 0 < shoelace a.cntr) (hsb : 0 < shoelace b.cntr)
    (hratio : min a.area2 b.area2 * cfg.spRatioDen <
      cfg.spRatioNum * max a.area2 b.area2)
    (hrun : mergeBand cfg recs dels = .ok (recs2, dels2)) :
    ∃ m2, (deleteBand dels2 recs2).filter (fun r => r.chromo_id = cid) = [m2] ∧
      m2.area2 = a.area2 + b.area2 ∧ max a.area2 b.area2 ≤ m2.area2 := by
  have ha2pos : 0 < a.area2 := by rw [hwa]; exact abs_pos.mpr (ne_of_gt hsa)
  have hb2pos : 0 < b.area2 := by rw [hwb]; exact abs_pos.mpr (ne_of_gt hsb)
  have hI0 : groupInvar cid [a, b] a.cntr_idx b.cntr_idx (recs, dels) :=
    ⟨hfil, hnd2, hja, hjb⟩
  have haL : a.cntr_idx ∈ [a, b].map (·.cntr_idx) := by simp
  have hbL : b.cntr_idx ∈ [a, b].map (·.cntr_idx) := by simp
  have hamem : a ∈ recs ∧ a.chromo_id = cid := by
    have haf : a ∈ recs.filter (fun r => r.chromo_id = cid) := by rw [hfil]; simp
    have hmf := List.mem_filter.mp haf
    exact ⟨hmf.1, by simpa using hmf.2⟩
  have hcid_mem : cid ∈ firstDedup (recs.map (·.chromo_id)) :=
    (mem_firstDedup cid _).mpr (List.mem_map.mpr ⟨a, hamem.1, hamem.2⟩)
  obtain ⟨pre, post, hsplit⟩ := List.append_of_mem hcid_mem
  have hnd_ids := firstDedup_nodup (recs.map (·.chromo_id))
  rw [hsplit] at hnd_ids
  obtain ⟨hpre_nd, hcp_nd, hdisj⟩ := List.nodup_append.mp hnd_ids
  have hpre_ne : ∀ c ∈ pre, c ≠ cid := fun c hc hceq =>
    hdisj hc (by rw [hceq]; exact List.mem_cons_self cid post)
  have hpost_ne : ∀ c ∈ post, c ≠ cid := fun c hc hceq =>
    (List.nodup_cons.mp hcp_nd).1 (hceq ▸ hc)
  simp only [mergeBand] at hrun
  rw [hsplit] at hrun
  obtain ⟨st1, hpre_run, hrest⟩ :=
    foldlM_append_ok (mergeIdGroup cfg) pre (cid :: post) (recs, dels)
      (recs2, dels2) hrun
  have hI1 : groupInvar cid [a, b] a.cntr_idx b.cntr_idx st1 :=
    foldlM_except_invariant (mergeIdGroup cfg)
      (groupInvar cid [a, b] a.cntr_idx b.cntr_idx) pre
      (fun s c s2 hc hIs hg => mergeIdGroup_other cfg cid c (hpre_ne c hc) [a, b]
        a.cntr_idx b.cntr_idx haL hbL s s2 hIs hg)
      (recs, dels) st1 hI0 hpre_run
  rw [List.foldlM_cons] at hrest
  rcases hg1 : mergeIdGroup cfg st1 cid with e | stM
  · rw [hg1] at hrest
    exact absurd hrest (by simp [Bind.bind, Except.bind])
  · rw [hg1] at hrest
    have hrest2 : post.foldlM (mergeIdGroup cfg) stM = .ok (recs2, dels2) := by
      simpa [Bind.bind, Except.bind] using hrest
    obtain ⟨L2, m2, sm, hIM, hL2shape, hsm_del, hm2id, hm2area, hsm_ne⟩ :=
      mergeIdGroup_self cfg cid a b st1 stM hnum hnd hI1 hwa hwb hsa hsb hratio hg1
    have hm2L : m2.cntr_idx ∈ L2.map (·.cntr_idx) := by
      rcases hL2shape with h | h <;> subst h <;> simp
    have hIfin : groupInvar cid L2 m2.cntr_idx m2.cntr_idx (recs2, dels2) :=
      foldlM_except_invariant (mergeIdGroup cfg)
        (groupInvar cid L2 m2.cntr_idx m2.cntr_idx) post
        (fun s c s2 hc hIs hg => mergeIdGroup_other cfg cid c (hpost_ne c hc) L2
          m2.cntr_idx m2.cntr_idx hm2L hm2L s s2 hIs hg)
        stM (recs2, dels2) hIM hrest2
    have hsm_in : sm.cntr_idx ∈ dels2 :=
      foldlM_except_invariant (mergeIdGroup cfg) (fun s => sm.cntr_idx ∈ s.2) post
        (fun s c s2 _ hIs hg => mergeIdGroup_dels_mono cfg s c s2 hg sm.cntr_idx hIs)
        stM (recs2, dels2) hsm_del hrest2
    have hm2_out : m2.cntr_idx ∉ dels2 := hIfin.2.2.1
    refine ⟨m2, ?_, hm2area, ?_⟩
    · have hcomm : (deleteBand dels2 recs2).filter (fun r => r.chromo_id = cid) =
          (recs2.filter (fun r => r.chromo_id = cid)).filter
            (fun r => decide (r.cntr_idx ∉ dels2)) := by
        simp only [deleteBand]
        rw [List.filter_filter, List.filter_filter]
        exact List.filter_congr (fun x _ => Bool.and_comm _ _)
      rw [hcomm, hIfin.1]
      rcases hL2shape with h | h <;> subst h
      · rw [List.filter_cons_of_neg (by simpa using hsm_in),
          List.filter_cons_of_pos (by simpa using hm2_out)]
        rfl
      · rw [List.filter_cons_of_pos (by simpa using hm2_out),
          List.filter_cons_of_neg (by simpa using hsm_in)]
        rfl
    · rw [hm2area]
      exact max_le (by linarith) (by linarith)

/-! ### Band stability through the merger (claim C5) -/

theorem bandOfGo_lt_key :
    ∀ (keys : List ℤ) (top cy k : ℤ), ascB top keys = true →
      bandOfGo cy top keys = some k → top < k := by
  intro keys
  induction keys with
  | nil =>
    intro top cy k _ h
    exact absurd h (by simp [bandOfGo])
  | cons k0 t ih =>
    intro top cy k hch h
    have hp : top ≤ k0 ∧ ascB k0 t = true := by simpa [ascB] using hch
    obtain ⟨h01, hch2⟩ := hp
    simp only [bandOfGo] at h
    by_cases hc : cy > top ∧ cy < k0
    · rw [if_pos hc] at h
      have hk : k0 = k := by simpa using h
      subst hk
      exact lt_trans hc.1 hc.2
    · rw [if_neg hc] at h
      exact lt_of_le_of_lt h01 (ih k0 cy k hch2 h)

/-- Characterization of the band search: a hit at key `k` determines a
lower boundary `t` such that exactly the centroids strictly between `t`
and `k` land in band `k`. -/
theorem bandOfGo_char :
    ∀ (keys : List ℤ) (top cy k : ℤ), ascB top keys = true →
      bandOfGo cy top keys = some k →
      ∃ t, top ≤ t ∧ t < cy ∧ cy < k ∧
        ∀ cy', bandOfGo cy' top keys = some k ↔ (t < cy' ∧ cy' < k) := by
  intro keys
  induction keys with
  | nil =>
    intro top cy k _ h
    exact absurd h (by simp [bandOfGo])
  | cons k0 t ih =>
    intro top cy k hch h
    have hp : top ≤ k0 ∧ ascB k0 t = true := by simpa [ascB] using hch
    obtain ⟨h01, hch2⟩ := hp
    simp only [bandOfGo] at h
    by_cases hc : cy > top ∧ cy < k0
    · rw [if_pos hc] at h
      have hk : k0 = k := by simpa using h
      subst hk
      refine ⟨top, le_refl top, hc.1, hc.2, fun cy' => ⟨fun h2 => ?_, fun h2 => ?_⟩⟩
      · simp only [bandOfGo] at h2
        by_cases hc2 : cy' > top ∧ cy' < k0
        · exact hc2
        · rw [if_neg hc2] at h2
          exact absurd (bandOfGo_lt_key t k0 cy' k0 hch2 h2) (lt_irrefl k0)
      · simp only [bandOfGo]
        rw [if_pos ⟨h2.1, h2.2⟩]
    · rw [if_neg hc] at h
      obtain ⟨s, hks, hscy, hcyk, hiff⟩ := ih k0 cy k hch2 h
      have hk0k : k0 < k := bandOfGo_lt_key t k0 cy k hch2 h
      refine ⟨s, le_trans h01 hks, hscy, hcyk, fun cy' => ⟨fun h2 => ?_, fun h2 => ?_⟩⟩
      · simp only [bandOfGo] at h2
        by_cases hc2 : cy' > top ∧ cy' < k0
        · rw [if_pos hc2] at h2
          have : k0 = k := by simpa using h2
          exact absurd this (ne_of_lt hk0k)
        · rw [if_neg hc2] at h2
          exact (hiff cy').mp h2
      · simp only [bandOfGo]
        rw [if_neg (fun hcon => absurd hcon.2
          (not_lt.mpr (le_of_lt (lt_of_le_of_lt hks h2.1))))]
        exact (hiff cy').mpr h2

/-- Truncated integer division of nonnegative numerators by positive
denominators is monotone into the mediant: if both quotients lie strictly
between `t` and `k`, so does the quotient of the sums. -/
theorem tdiv_mediant (na nb da db t k : ℤ)
    (hna : 0 ≤ na) (hnb : 0 ≤ nb) (hda : 0 < da) (hdb : 0 < db)
    (h1 : t < pyIntDiv na da) (h2 : pyIntDiv na da < k)
    (h3 : t < pyIntDiv nb db) (h4 : pyIntDiv nb db < k) :
    t < pyIntDiv (na + nb) (da + db) ∧ pyIntDiv (na + nb) (da + db) < k := by
  have hqa : pyIntDiv na da = na / da := Int.tdiv_eq_ediv hna hda.le
  have hqb : pyIntDiv nb db = nb / db := Int.tdiv_eq_ediv hnb hdb.le
  have hqs : pyIntDiv (na + nb) (da + db) = (na + nb) / (da + db) :=
    Int.tdiv_eq_ediv (by linarith) (by linarith)
  rw [hqa] at h1 h2
  rw [hqb] at h3 h4
  rw [hqs]
  have e1 : (t + 1) * da ≤ na :=
    (Int.le_ediv_iff_mul_le hda).mp (Int.lt_iff_add_one_le.mp h1)
  have e3 : (t + 1) * db ≤ nb :=
    (Int.le_ediv_iff_mul_le hdb).mp (Int.lt_iff_add_one_le.mp h3)
  have e2 : na < k * da := (Int.ediv_lt_iff_lt_mul hda).mp h2
  have e4 : nb < k * db := (Int.ediv_lt_iff_lt_mul hdb).mp h4
  constructor
  · exact Int.lt_iff_add_one_le.mpr
      ((Int.le_ediv_iff_mul_le (by linarith)).mpr (by nlinarith))
  · exact (Int.ediv_lt_iff_lt_mul (by linarith)).mpr (by nlinarith)

/-- Every record gathered from a positively-oriented contour with
nonnegative raw `y`-moment carries the truncated-moment centroid of its
own contour. -/
theorem gatherAll_moment (marC : Cntr → ℤ × ℤ) (cntrs : List Cntr)
    (hpos : ∀ c ∈ cntrs, 0 < shoelace c ∧ 0 ≤ raw01 c) :
    ∀ r ∈ gatherAll marC cntrs, 0 < shoelace r.cntr ∧ 0 ≤ raw01 r.cntr ∧
      r.cy = pyIntDiv (raw01 r.cntr) (3 * shoelace r.cntr) := by
  intro r hr
  obtain ⟨p, hp, hre⟩ := List.mem_map.mp hr
  have hc : p.2 ∈ cntrs := List.snd_mem_of_mem_enumFrom hp
  obtain ⟨h1, h2⟩ := hpos p.2 hc
  have hS : shoelace p.2 ≠ 0 := ne_of_gt h1
  subst hre
  simp only [gatherContoursDict]
  rw [if_pos hS]
  exact ⟨h1, h2, rfl⟩

/-- After classification, every record of a band satisfies the full band
invariant for that band's key. -/
theorem classifyStage_bandInv (idRows : List (ℤ × List CntrDict)) (left : List CntrDict)
    (hleft : ∀ r ∈ left, 0 < shoelace r.cntr ∧ 0 ≤ raw01 r.cntr ∧
      r.cy = pyIntDiv (raw01 r.cntr) (3 * shoelace r.cntr)) :
    ∀ kv ∈ classifyStage idRows left, ∀ r ∈ kv.2,
      bandInv (idRows.map (·.1)) kv.1 r := by
  intro kv hkv r hr
  simp only [classifyStage] at hkv
  obtain ⟨kv1, hkv1, hkve⟩ := List.mem_map.mp hkv
  obtain ⟨kv0, hkv0, hkv1e⟩ := List.mem_map.mp hkv1
  subst hkve
  subst hkv1e
  obtain ⟨x, hx, hxr⟩ := List.mem_map.mp hr
  have hx0 : x ∈ kv0.2 := (mem_isortBy (·.cx) x kv0.2).mp hx
  have hb := orgBands_mem (idRows.map (·.1)) left kv0 hkv0 x hx0
  obtain ⟨hcn, hcx, hcy, -⟩ := assignNearest_geom (lookupRow idRows kv0.1) x
  obtain ⟨h1, h2, h3⟩ := hleft x hb.1
  subst hxr
  exact ⟨by rw [hcn]; exact h1, by rw [hcn]; exact h2,
    by rw [hcy, hcn]; exact h3, by rw [hcy]; exact hb.2⟩

/-- Merging one small piece preserves the band invariant of every record:
the recomputed centroid is the truncated mediant of the two constituent
centroids, which stays strictly inside the band. -/
theorem mergeOneSmall_bandInv (keys : List ℤ) (k : ℤ) (mainIdxs : List ℕ)
    (st st2 : List CntrDict × List ℕ) (small : CntrDict)
    (hch : ascB 0 keys = true)
    (hall : ∀ r ∈ st.1, bandInv keys k r) (hsm : bandInv keys k small)
    (hrun : mergeOneSmall mainIdxs st small = .ok st2) :
    ∀ r ∈ st2.1, bandInv keys k r := by
  simp only [mergeOneSmall] at hrun
  rcases hnm : nearestMain small.cntr
      (st.1.filter fun r => r.cntr_idx ∈ mainIdxs) with _ | ⟨d, m, si, mi⟩
  · rw [hnm] at hrun
    exact absurd hrun (by simp)
  · rw [hnm] at hrun
    replace hrun : (do
        let m' ← recomputeMerged m (spliceContours small.cntr m.cntr si mi)
        Except.ok (st.1.map (fun r => if r.cntr_idx = m.cntr_idx then m' else r),
          st.2 ++ [small.cntr_idx])) = Except.ok st2 := hrun
    have hmmem : m ∈ st.1 :=
      (List.mem_filter.mp (nearestMain_mem small.cntr _ d m si mi hnm)).1
    obtain ⟨hms, hmr, hmq, hmb⟩ := hall m hmmem
    obtain ⟨hss, hsr, hsq, hsb⟩ := hsm
    have hsnil : small.cntr ≠ [] := ne_nil_of_shoelace_pos _ hss
    have hmnil : m.cntr ≠ [] := ne_nil_of_shoelace_pos _ hms
    have hS : shoelace (spliceContours small.cntr m.cntr si mi) =
        shoelace small.cntr + shoelace m.cntr :=
      shoelace_splice _ _ hsnil hmnil si mi
    have hR : raw01 (spliceContours small.cntr m.cntr si mi) =
        raw01 small.cntr + raw01 m.cntr :=
      raw01_splice _ _ hsnil hmnil si mi
    rcases hrec : recomputeMerged m (spliceContours small.cntr m.cntr si mi) with e | m2
    · rw [hrec] at hrun
      exact absurd hrun (by simp [Bind.bind, Except.bind])
    · rw [hrec] at hrun
      have hst2 : st2 = (st.1.map (fun r => if r.cntr_idx = m.cntr_idx then m2 else r),
          st.2 ++ [small.cntr_idx]) := by
        simpa [Bind.bind, Except.bind] using hrun.symm
      subst hst2
      obtain ⟨-, -, -, hc2, -, -, hcy2, -⟩ := recomputeMerged_fields m _ m2 hrec
      obtain ⟨tt, htt0, hts, hsk, hiff⟩ := bandOfGo_char keys 0 small.cy k hch hsb
      have hmrange : tt < m.cy ∧ m.cy < k := (hiff m.cy).mp hmb
      have hmed := tdiv_mediant (raw01 small.cntr) (raw01 m.cntr)
        (3 * shoelace small.cntr) (3 * shoelace m.cntr) tt k hsr hmr
        (by linarith) (by linarith)
        (hsq ▸ hts) (hsq ▸ hsk) (hmq ▸ hmrange.1) (hmq ▸ hmrange.2)
      have hcyv : m2.cy = pyIntDiv (raw01 small.cntr + raw01 m.cntr)
          (3 * shoelace small.cntr + 3 * shoelace m.cntr) := by
        rw [hcy2, hR, hS, mul_add]
      have hm2 : bandInv keys k m2 := by
        refine ⟨?_, ?_, ?_, ?_⟩
        · rw [hc2, hS]; linarith
        · rw [hc2, hR]; linarith
        · rw [hcy2, hc2]
        · rw [hcyv]
          exact (hiff _).mpr hmed
      intro r hr
      obtain ⟨x, hx, hxr⟩ := List.mem_map.mp hr
      by_cases hidx : x.cntr_idx = m.cntr_idx
      · rw [if_pos hidx] at hxr
        exact hxr ▸ hm2
      · rw [if_neg hidx] at hxr
        exact hxr ▸ hall x hx

/-- One identifier pass of the merger preserves the band invariant. -/
theorem mergeIdGroup_bandInv (cfg : Config) (keys : List ℤ) (k : ℤ)
    (st st2 : List CntrDict × List ℕ) (cid : Option String)
    (hch : ascB 0 keys = true)
    (hall : ∀ r ∈ st.1, bandInv keys k r)
    (hrun : mergeIdGroup cfg st cid = .ok st2) :
    ∀ r ∈ st2.1, bandInv keys k r := by
  simp only [mergeIdGroup] at hrun
  split at hrun
  · have h : st = st2 := by simpa using hrun
    exact h ▸ hall
  · split at hrun
    · exact absurd hrun (by simp)
    · split at hrun
      · have h : st = st2 := by simpa using hrun
        exact h ▸ hall
      · refine foldlM_except_invariant (mergeOneSmall _)
          (fun s => ∀ r ∈ s.1, bandInv keys k r) _
          (fun s a s2 ha hIs hg => ?_) st st2 hall hrun
        have hasm : a ∈ st.1 :=
          (List.mem_filter.mp (List.mem_filter.mp ha).1).1
        exact mergeOneSmall_bandInv keys k _ s s2 a hch hIs (hall a hasm) hg

/-- A whole band's merger preserves the band invariant. -/
theorem mergeBand_bandInv (cfg : Config) (keys : List ℤ) (k : ℤ)
    (recs : List CntrDict) (dels : List ℕ) (pr : List CntrDict × List ℕ)
    (hch : ascB 0 keys = true)
    (hall : ∀ r ∈ recs, bandInv keys k r)
    (hrun : mergeBand cfg recs dels = .ok pr) :
    ∀ r ∈ pr.1, bandInv keys k r := by
  simp only [mergeBand] at hrun
  exact foldlM_except_invariant (mergeIdGroup cfg)
    (fun s => ∀ r ∈ s.1, bandInv keys k r) _
    (fun s a s2 _ hIs hg => mergeIdGroup_bandInv cfg keys k s s2 a hch hIs hg)
    (recs, dels) pr hall hrun

/-- The merge stage preserves the band invariant of every band. -/
theorem mergeStage_bandInv (cfg : Config) (keys : List ℤ)
    (bands : List (ℤ × List CntrDict)) (mr : List (ℤ × List CntrDict) × List ℕ)
    (hch : ascB 0 keys = true)
    (hin : ∀ kv ∈ bands, ∀ r ∈ kv.2, bandInv keys kv.1 r)
    (hrun : mergeStage cfg bands = .ok mr) :
    ∀ kv ∈ mr.1, ∀ r ∈ kv.2, bandInv keys kv.1 r := by
  simp only [mergeStage] at hrun
  have aux : ∀ (l : List (ℤ × List CntrDict))
      (acc res : List (ℤ × List CntrDict) × List ℕ),
      (∀ kv ∈ l, kv ∈ bands) →
      (∀ kv ∈ acc.1, ∀ r ∈ kv.2, bandInv keys kv.1 r) →
      l.foldlM (fun acc kv => do
        let pr ← mergeBand cfg kv.2 acc.2
        Except.ok (acc.1 ++ [(kv.1, pr.1)], pr.2)) acc = .ok res →
      ∀ kv ∈ res.1, ∀ r ∈ kv.2, bandInv keys kv.1 r := by
    intro l
    induction l with
    | nil =>
      intro acc res _ hacc h
      have hr : acc = res := by simpa [pure, Except.pure] using h
      exact hr ▸ hacc
    | cons kv0 t ih =>
      intro acc res hsub hacc h
      rw [List.foldlM_cons] at h
      rcases hmb : mergeBand cfg kv0.2 acc.2 with e | pr
      · rw [hmb] at h
        exact absurd h (by simp [Bind.bind, Except.bind])
      · rw [hmb] at h
        have h2 : t.foldlM (fun acc kv => do
            let pr ← mergeBand cfg kv.2 acc.2
            Except.ok (acc.1 ++ [(kv.1, pr.1)], pr.2))
            (acc.1 ++ [(kv0.1, pr.1)], pr.2) = .ok res := by
          simpa [Bind.bind, Except.bind] using h
        refine ih (acc.1 ++ [(kv0.1, pr.1)], pr.2) res
          (fun kv hkv => hsub kv (List.mem_cons_of_mem _ hkv)) ?_ h2
        intro kv hkv r hr
        rcases List.mem_append.mp hkv with hkv | hkv
        · exact hacc kv hkv r hr
        · have hkve : kv = (kv0.1, pr.1) := List.mem_singleton.mp hkv
          subst hkve
          exact mergeBand_bandInv cfg keys kv0.1 kv0.2 acc.2 pr hch
            (hin kv0 (hsub kv0 (List.mem_cons_self _ _))) hmb r hr
  exact aux bands ([], []) mr (fun kv h => h) (by simp) hrun

/-- C5.  Row partition property: on an input whose contours are all
positively oriented with nonnegative raw `y`-moment (so every centroid is
the truncated moment quotient), with the label rows' centroid keys in
ascending order, every record of the final per-row output — including
records whose centroid was recomputed by a merge — has its vertical
centroid inside the band of the row key it is stored under, bands being
the strict ranges between consecutive label-row centroids starting
from 0. -/
theorem C5_band_invariant (marC : Cntr → ℤ × ℤ) (cfg : Config) (cntrs : List Cntr)
    (pr : List (ℤ × List CntrDict) × List (ℤ × List CntrDict))
    (out : List (ℤ × List CntrDict))
    (hpos : ∀ c ∈ cntrs, 0 < shoelace c ∧ 0 ≤ raw01 c)
    (hid : idInfo cfg (gatherAll marC cntrs) = .ok pr)
    (hch : ascB 0 (pr.1.map (·.1)) = true)
    (hrun : readKaryotype marC cfg cntrs = .ok out) :
    ∀ kv ∈ out, ∀ r ∈ kv.2, bandOf (pr.1.map (·.1)) r.cy = some kv.1 := by
  simp only [readKaryotype] at hrun
  rw [hid] at hrun
  replace hrun : (do
      let mr ← mergeStage cfg (classifyStage pr.1
        ((gatherAll marC cntrs).filter fun r => r.cntr_idx ∉ idCharIdxs pr.2))
      Except.ok (deleteStage mr.2 mr.1)) = Except.ok out := hrun
  rcases hms : mergeStage cfg (classifyStage pr.1
      ((gatherAll marC cntrs).filter fun r => r.cntr_idx ∉ idCharIdxs pr.2))
    with e | mr
  · rw [hms] at hrun
    exact absurd hrun (by simp [Bind.bind, Except.bind])
  · rw [hms] at hrun
    have hout : out = deleteStage mr.2 mr.1 := by
      simpa [Bind.bind, Except.bind] using hrun.symm
    subst hout
    have hleft : ∀ r ∈ (gatherAll marC cntrs).filter
        (fun r => r.cntr_idx ∉ idCharIdxs pr.2),
        0 < shoelace r.cntr ∧ 0 ≤ raw01 r.cntr ∧
          r.cy = pyIntDiv (raw01 r.cntr) (3 * shoelace r.cntr) :=
      fun r hr => gatherAll_moment marC cntrs hpos r (List.mem_filter.mp hr).1
    have hbands := classifyStage_bandInv pr.1 _ hleft
    have hmr := mergeStage_bandInv cfg (pr.1.map (·.1)) _ mr hch hbands hms
    intro kv hkv r hr
    simp only [deleteStage] at hkv
    obtain ⟨kv0, hkv0, hkve⟩ := List.mem_map.mp hkv
    subst hkve
    have hr0 : r ∈ kv0.2 := by
      have hrf : r ∈ deleteBand mr.2 kv0.2 := hr
      simp only [deleteBand] at hrf
      exact (List.mem_filter.mp hrf).1
    exact (hmr kv0 hkv0 r hr0).2.2.2

/-- Witness for C5: in the world's final output, the merged record of
band 1 (and in particular its recomputed centroid) still lies in the band
of the row key it is stored under. -/
theorem C5_witness :
    bandOf (wPr.1.map (·.1)) ((wOut.headD (0, [])).2.headD junkRec).cy =
      some (wOut.headD (0, [])).1 :=
  C5_band_invariant marC0 defaultCfg worldCntrs wPr wOut (by decide) (by decide)
    (by decide) (by decide) (wOut.headD (0, [])) (by decide)
    ((wOut.headD (0, [])).2.headD junkRec) (by decide)

/-- Witness for C9: band 1 of the world holds the two identifier-"1"
bodies of doubled areas 800 and 50 (ratio 1/16 below the 2/5 threshold);
after merging and deleting, exactly one identifier-"1" record survives in
the band, with doubled area 850. -/
theorem C9_witness :
    ∃ m2, (deleteBand wMerge1.2 wMerge1.1).filter
        (fun r => r.chromo_id = some "1") = [m2] ∧ m2.area2 = 850 := by
  obtain ⟨m2, h1, h2, -⟩ :=
    C9_merge_two defaultCfg (some "1") wA wB wBand1 [] wMerge1.1 wMerge1.2
      (by decide) (by decide) (by decide) (by decide) (by decide) (by decide)
      (by decide) (by decide) (by decide) (by decide) (by decide) (by decide)
  refine ⟨m2, h1, ?_⟩
  rw [h2]
  decide

end Woodpecker
